import Mathlib

set_option maxRecDepth 4000

/-!
Verification of the parallel segmented prime pipeline of the `nt` repository.

This file shallowly embeds the Rust sources (`src/primes.rs`, `src/main.rs`,
`src/storage.rs`, `src/storage_uring.rs`) into Lean 4:

* pure sieving functions become Lean functions on `List Bool` / `List Nat`;
* the machine-word bit buffers (`Vec<u64>` with `get_bit`/`clear_bit`) are
  modelled at the bit level, as `List Bool` or `Nat → Bool` (the `u64`
  packing is memory layout only: the code indexes single bits);
* `(x as f64).sqrt() as usize` is modelled as `Nat.sqrt x`, the value it
  computes for every argument size reached by this program;
* channels are modelled by the list of sent values; a consumer thread is a
  fold over its arrival list; the atomic `fetch_add` cursor is modelled by
  its linearization (the k-th fetch_add returns k);
* `usize` arithmetic is modelled on `Nat` (no computation here approaches
  2^64, and the code's own comments assume that).
-/

/-- `SEGMENT_SIZE_BITS` from `primes.rs`: 32KB in bits = 262144 odd numbers. -/
def SEGMENT_SIZE_BITS : Nat := 32 * 1024 * 8

/-- `SEGMENT_SIZE_NUMBERS` from `primes.rs`: actual numbers per segment. -/
def SEGMENT_SIZE_NUMBERS : Nat := SEGMENT_SIZE_BITS * 2

/-- `SegmentPrimes` from `primes.rs`: unpacked segment primes with an id. -/
structure SegmentPrimes where
  primes : List Nat
  segment_id : Nat
deriving DecidableEq

/-- The inner marking loop shared by the sieves: starting at `start`, while
`start < bound`, clear the cell at `start` and advance by `step`.  This is
`let mut j = ...; while j < bound { a[j] = false; j += step; }` from
`primes.rs` (`find_primes_v1` uses it with `bound = limit + 1` to model
`j <= limit`). -/
def markStep (bound step : Nat) (start : Nat) (l : List Bool) : List Bool :=
  if h : step = 0 ∨ bound ≤ start then l
  else markStep bound step (start + step) (l.set start false)
termination_by bound - start
decreasing_by
  push_neg at h
  omega

theorem markStep_length (bound step start : Nat) (l : List Bool) :
    (markStep bound step start l).length = l.length := by
  unfold markStep
  split
  · rfl
  · rw [markStep_length]
    exact List.length_set ..
termination_by bound - start
decreasing_by
  rename_i h
  push_neg at h
  omega

theorem getD_set_self {l : List Bool} {i : Nat} (h : i < l.length) (b : Bool) :
    (l.set i b).getD i false = b := by
  rw [List.getD_eq_getElem?_getD, List.getElem?_set_self (by omega), Option.getD_some]

theorem getD_set_ne {l : List Bool} {i n : Nat} (h : i ≠ n) (b : Bool) :
    (l.set i b).getD n false = l.getD n false := by
  rw [List.getD_eq_getElem?_getD, List.getElem?_set_ne h, ← List.getD_eq_getElem?_getD]

/-- What `markStep` leaves in cell `n`: `false` exactly on the arithmetic
progression `start, start+step, ...` below `bound`, other cells unchanged. -/
theorem markStep_getD (bound step start n : Nat) (l : List Bool)
    (hstep : 0 < step) (hlen : bound ≤ l.length) :
    (markStep bound step start l).getD n false =
      if start ≤ n ∧ n < bound ∧ step ∣ (n - start) then false
      else l.getD n false := by
  unfold markStep
  split
  · rename_i h
    rcases h with h | h
    · omega
    · rw [if_neg]; omega
  · rename_i h
    push_neg at h
    rw [markStep_getD bound step (start + step) n _ hstep (by rw [List.length_set]; exact hlen)]
    by_cases hcase : start + step ≤ n ∧ n < bound ∧ step ∣ (n - (start + step))
    · rw [if_pos hcase, if_pos ⟨by omega, hcase.2.1, by
        have h2 := hcase.2.2
        have heq : (n - start) = (n - (start + step)) + step := by omega
        rw [heq]
        exact Nat.dvd_add h2 (Nat.dvd_refl step)⟩]
    · rw [if_neg hcase]
      by_cases hn : start ≤ n ∧ n < bound ∧ step ∣ (n - start)
      · rcases hn with ⟨h1, h2, h3⟩
        by_cases hsn : n = start
        · subst hsn
          rw [if_pos ⟨le_refl _, h2, by simp⟩]
          exact getD_set_self (by omega) false
        · exfalso
          apply hcase
          have hpos : 0 < n - start := by omega
          have hstep_le : step ≤ n - start := Nat.le_of_dvd hpos h3
          refine ⟨by omega, h2, ?_⟩
          have heq : n - (start + step) = (n - start) - step := by omega
          rw [heq]
          exact Nat.dvd_sub' h3 (Nat.dvd_refl step)
      · rw [if_neg hn]
        apply getD_set_ne
        intro hcontra
        exact hn ⟨by omega, by omega, by rw [← hcontra]; simp⟩
termination_by bound - start
decreasing_by
  rename_i h
  push_neg at h
  omega

/-- Divisibility form of the progression condition used by `markStep_getD`
when marking from a square: for `p ∣ start`, a cell `n ≥ start` is on the
progression iff `p ∣ n`. -/
theorem progression_iff_dvd {p start n : Nat} (hd : p ∣ start)
    (hn : start ≤ n) : p ∣ (n - start) ↔ p ∣ n := by
  constructor
  · intro h1
    have := Nat.dvd_add h1 hd
    rwa [Nat.sub_add_cancel hn] at this
  · intro h
    exact Nat.dvd_sub' h hd

/-! ## Variation 1: basic Sieve of Eratosthenes (`find_primes_v1` in `primes.rs`) -/

/-- Initial array of `find_primes_v1`: all `true`, then cells 0 and 1 cleared. -/
def v1Init (limit : Nat) : List Bool :=
  ((List.replicate (limit + 1) true).set 0 false).set 1 false

/-- The outer loop of `find_primes_v1` over a given index list: for each `i`,
if still marked prime, clear `i*i, i*i+i, ... <= limit`. -/
def v1Loop (limit : Nat) (l : List Bool) (idxs : List Nat) : List Bool :=
  idxs.foldl (fun l i => if l.getD i false then markStep (limit + 1) i (i * i) l else l) l

/-- The sieve array of `find_primes_v1` after the outer loop
`for i in 2..=((limit as f64).sqrt() as usize)`. -/
def v1Sieve (limit : Nat) : List Bool :=
  v1Loop limit (v1Init limit) (List.range' 2 (Nat.sqrt limit - 1))

/-- `find_primes_v1` from `primes.rs`: collect the indices still marked. -/
def find_primes_v1 (limit : Nat) : List Nat :=
  if limit < 2 then []
  else (List.range (limit + 1)).filter (fun n => (v1Sieve limit).getD n false)

theorem v1Init_length (limit : Nat) : (v1Init limit).length = limit + 1 := by
  simp [v1Init]

theorem v1Init_getD (limit n : Nat) (hn : n ≤ limit) (hl : 2 ≤ limit) :
    (v1Init limit).getD n false = false ↔ n = 0 ∨ n = 1 := by
  unfold v1Init
  rcases eq_or_ne n 1 with h1 | h1
  · subst h1
    rw [getD_set_self (by simp; omega) false]
    simp
  · rw [getD_set_ne (Ne.symm h1) false]
    rcases eq_or_ne n 0 with h0 | h0
    · subst h0
      rw [getD_set_self (by simp) false]
      simp
    · rw [getD_set_ne (Ne.symm h0) false]
      rw [List.getD_eq_getElem?_getD, List.getElem?_replicate]
      simp [Nat.lt_succ_of_le hn]
      omega

theorem v1Loop_length (limit : Nat) (l : List Bool) (idxs : List Nat) :
    (v1Loop limit l idxs).length = l.length := by
  induction idxs generalizing l with
  | nil => rfl
  | cons i rest ih =>
    have hstep : v1Loop limit l (i :: rest) =
        v1Loop limit (if l.getD i false then markStep (limit + 1) i (i * i) l else l) rest := rfl
    rw [hstep, ih]
    split
    · exact markStep_length ..
    · rfl

/-- Invariant of the v1 outer loop: after processing indices `2 .. c+1`,
a cell `n ≤ limit` is cleared iff it is 0, 1, or has a prime divisor
`p ≤ c+1` with `p * p ≤ n`. -/
theorem v1Loop_invariant (limit : Nat) (hl : 2 ≤ limit) (c : Nat) :
    ∀ n, n ≤ limit →
      ((v1Loop limit (v1Init limit) (List.range' 2 c)).getD n false = false ↔
        n = 0 ∨ n = 1 ∨ ∃ p, p.Prime ∧ p ≤ c + 1 ∧ p ∣ n ∧ p * p ≤ n) := by
  induction c with
  | zero =>
    intro n hn
    show (v1Init limit).getD n false = false ↔ _
    rw [v1Init_getD limit n hn hl]
    constructor
    · intro h; tauto
    · rintro (h | h | ⟨p, hp, hp1, _, _⟩)
      · tauto
      · tauto
      · exfalso; have := hp.two_le; omega
  | succ c ih =>
    intro n hn
    have hrange : List.range' 2 (c + 1) = List.range' 2 c ++ [2 + c] :=
      List.range'_1_concat 2 c
    rw [hrange]
    unfold v1Loop
    rw [List.foldl_append]
    set A := v1Loop limit (v1Init limit) (List.range' 2 c) with hA
    have hAlen : A.length = limit + 1 := by rw [hA, v1Loop_length, v1Init_length]
    set i := 2 + c with hi
    show (if A.getD i false then markStep (limit + 1) i (i * i) A else A).getD n false
        = false ↔ _
    have hext : ∀ m, m ≤ limit →
        ((∃ p, p.Prime ∧ p ≤ c + 1 + 1 ∧ p ∣ m ∧ p * p ≤ m) ↔
         (∃ p, p.Prime ∧ p ≤ c + 1 ∧ p ∣ m ∧ p * p ≤ m) ∨
           (i.Prime ∧ i ∣ m ∧ i * i ≤ m)) := by
      intro m _
      constructor
      · rintro ⟨p, hp, hple, hpd, hpsq⟩
        rcases Nat.eq_or_lt_of_le hple with he | hlt
        · right
          have hip : i = p := by omega
          rw [hip]
          exact ⟨hp, hpd, hpsq⟩
        · left; exact ⟨p, hp, by omega, hpd, hpsq⟩
      · rintro (⟨p, hp, hple, hpd, hpsq⟩ | ⟨hip, hid, hisq⟩)
        · exact ⟨p, hp, by omega, hpd, hpsq⟩
        · exact ⟨i, hip, by omega, hid, hisq⟩
    by_cases hgi : A.getD i false = true
    · rw [if_pos hgi]
      -- i survived the first c rounds, so i is prime
      have hprime : i.Prime := by
        by_contra hnp
        have h2i : 2 ≤ i := by omega
        by_cases hil : i ≤ limit
        · have := (ih i hil).mpr
          have hminfac : ∃ p, p.Prime ∧ p ≤ c + 1 ∧ p ∣ i ∧ p * p ≤ i := by
            have hi1 : i ≠ 1 := by omega
            have hip : 0 < i := by omega
            refine ⟨i.minFac, Nat.minFac_prime hi1, ?_, Nat.minFac_dvd i, ?_⟩
            · have hlt : i.minFac < i := by
                have hle := Nat.minFac_le hip
                rcases Nat.eq_or_lt_of_le hle with he | hlt
                · exfalso; apply hnp; rw [← he]; exact Nat.minFac_prime hi1
                · exact hlt
              omega
            · have := Nat.minFac_sq_le_self hip hnp
              rwa [Nat.pow_two] at this
          have := (ih i hil).mpr (Or.inr (Or.inr hminfac))
          rw [this] at hgi
          exact Bool.false_ne_true hgi
        · -- i > limit: cell i is out of range, getD defaults to false
          have : A.getD i false = false := by
            rw [List.getD_eq_getElem?_getD, List.getElem?_eq_none (by omega)]
            rfl
          rw [this] at hgi
          exact Bool.false_ne_true hgi
      rw [markStep_getD _ _ _ _ _ (by omega) (by omega)]
      have hdvd_start : (i : Nat) ∣ i * i := Dvd.intro i rfl
      by_cases hmark : i * i ≤ n ∧ n < limit + 1 ∧ (i : Nat) ∣ (n - i * i)
      · rw [if_pos hmark]
        have hidn : i ∣ n := (progression_iff_dvd hdvd_start hmark.1).mp hmark.2.2
        constructor
        · intro _
          right; right
          rw [hext n hn]
          right
          exact ⟨hprime, hidn, hmark.1⟩
        · intro _; rfl
      · rw [if_neg hmark]
        rw [ih n hn]
        constructor
        · rintro (h | h | h)
          · exact Or.inl h
          · exact Or.inr (Or.inl h)
          · exact Or.inr (Or.inr ((hext n hn).mpr (Or.inl h)))
        · rintro (h | h | h)
          · exact Or.inl h
          · exact Or.inr (Or.inl h)
          · rw [hext n hn] at h
            rcases h with h | ⟨_, hid, hisq⟩
            · exact Or.inr (Or.inr h)
            · exfalso
              apply hmark
              refine ⟨hisq, by omega, (progression_iff_dvd hdvd_start hisq).mpr hid⟩
    · rw [if_neg hgi]
      rw [ih n hn]
      -- Whether the `p = i` witness could newly fire:
      have hno_i_witness : ¬ (i.Prime ∧ i ∣ n ∧ i * i ≤ n) := by
        rintro ⟨hip, hid, hisq⟩
        by_cases hil : i ≤ limit
        · -- i ≤ limit did not survive, so it has a small prime factor: not prime
          have hfalse : A.getD i false = false := by
            cases hb : A.getD i false
            · rfl
            · exact absurd hb hgi
          have := (ih i hil).mp hfalse
          rcases this with h | h | ⟨p, hp, _, hpd, hpsq⟩
          · omega
          · omega
          · have := (Nat.prime_dvd_prime_iff_eq hp hip).mp hpd
            subst this
            have := hip.two_le
            nlinarith
        · -- i > limit: i * i ≤ n ≤ limit is impossible
          have hii : i ≤ i * i := Nat.le_mul_of_pos_left i (by omega)
          omega
      constructor
      · rintro (h | h | h)
        · exact Or.inl h
        · exact Or.inr (Or.inl h)
        · exact Or.inr (Or.inr ((hext n hn).mpr (Or.inl h)))
      · rintro (h | h | h)
        · exact Or.inl h
        · exact Or.inr (Or.inl h)
        · rw [hext n hn] at h
          rcases h with h | hiw
          · exact Or.inr (Or.inr h)
          · exact absurd hiw hno_i_witness

/-- A number `2 ≤ n ≤ limit` is prime iff it has no prime divisor
`p ≤ √limit` with `p * p ≤ n`: the criterion the sieve implements. -/
theorem prime_iff_no_small_factor {limit n : Nat} (h2 : 2 ≤ n) (hn : n ≤ limit) :
    n.Prime ↔ ¬ ∃ p, p.Prime ∧ p ≤ Nat.sqrt limit ∧ p ∣ n ∧ p * p ≤ n := by
  constructor
  · rintro hprime ⟨p, hp, _, hpd, hpsq⟩
    have := (Nat.prime_dvd_prime_iff_eq hp hprime).mp hpd
    subst this
    nlinarith [hp.two_le]
  · intro hno
    by_contra hnp
    apply hno
    have hn1 : n ≠ 1 := by omega
    have hn0 : 0 < n := by omega
    refine ⟨n.minFac, Nat.minFac_prime hn1, ?_, Nat.minFac_dvd n, ?_⟩
    · apply Nat.le_sqrt.mpr
      calc n.minFac * n.minFac ≤ n := by
            have := Nat.minFac_sq_le_self hn0 hnp
            rwa [Nat.pow_two] at this
        _ ≤ limit := hn
    · have := Nat.minFac_sq_le_self hn0 hnp
      rwa [Nat.pow_two] at this

/-- Final state of the v1 sieve: cell `n ≤ limit` holds `true` iff `n` is prime. -/
theorem v1Sieve_getD (limit n : Nat) (hl : 2 ≤ limit) (hn : n ≤ limit) :
    ((v1Sieve limit).getD n false = true) ↔ n.Prime := by
  have hsq : 1 ≤ Nat.sqrt limit := Nat.le_sqrt.mpr (by omega)
  have hinv := v1Loop_invariant limit hl (Nat.sqrt limit - 1) n hn
  have hc : Nat.sqrt limit - 1 + 1 = Nat.sqrt limit := by omega
  rw [hc] at hinv
  unfold v1Sieve
  constructor
  · intro htrue
    have hne : ¬ (n = 0 ∨ n = 1 ∨ ∃ p, p.Prime ∧ p ≤ Nat.sqrt limit ∧ p ∣ n ∧ p * p ≤ n) := by
      intro h
      rw [← hinv] at h
      rw [htrue] at h
      simp at h
    push_neg at hne
    have h2 : 2 ≤ n := by omega
    exact (prime_iff_no_small_factor h2 hn).mpr (by
      rintro ⟨p, hp, hps, hpd, hpsq⟩
      have := hne.2.2 p hp hps hpd
      omega)
  · intro hprime
    cases hb : (v1Loop limit (v1Init limit) (List.range' 2 (Nat.sqrt limit - 1))).getD n false
    · exfalso
      have := hinv.mp hb
      rcases this with h | h | h
      · subst h; exact Nat.not_prime_zero hprime
      · subst h; exact Nat.not_prime_one hprime
      · exact (prime_iff_no_small_factor hprime.two_le hn).mp hprime h
    · rfl

/-- `find_primes_v1 limit` contains exactly the primes up to `limit`. -/
theorem mem_find_primes_v1 (limit n : Nat) :
    n ∈ find_primes_v1 limit ↔ n.Prime ∧ n ≤ limit := by
  unfold find_primes_v1
  split
  · rename_i h
    simp only [List.not_mem_nil, false_iff]
    rintro ⟨hp, hle⟩
    have := hp.two_le
    omega
  · rename_i h
    push_neg at h
    rw [List.mem_filter, List.mem_range]
    constructor
    · rintro ⟨hlt, hget⟩
      have hn : n ≤ limit := by omega
      exact ⟨(v1Sieve_getD limit n h hn).mp hget, hn⟩
    · rintro ⟨hp, hle⟩
      exact ⟨by omega, (v1Sieve_getD limit n h hle).mpr hp⟩

/-- `find_primes_v1` is strictly ascending. -/
theorem find_primes_v1_sorted (limit : Nat) :
    (find_primes_v1 limit).Pairwise (· < ·) := by
  unfold find_primes_v1
  split
  · exact List.Pairwise.nil
  · exact (List.pairwise_lt_range _).filter _

/-! ## Variation 2: odd-only sieve (`find_primes_v2` in `primes.rs`).
Cell `i` represents the number `2*i + 3`. -/

/-- `size` from `find_primes_v2`: number of tracked odd numbers. -/
def v2Size (limit : Nat) : Nat := (limit - 1) / 2

/-- `sqrt_limit` from `find_primes_v2`: last index of the outer loop. -/
def v2SqrtIdx (limit : Nat) : Nat := (Nat.sqrt limit - 1) / 2

/-- The outer loop of `find_primes_v2` over a given index list. -/
def v2Loop (size : Nat) (l : List Bool) (idxs : List Nat) : List Bool :=
  idxs.foldl (fun l i =>
    if l.getD i false then
      markStep size (2 * i + 3) (((2 * i + 3) * (2 * i + 3) - 3) / 2) l
    else l) l

/-- The sieve array of `find_primes_v2` after the outer loop
`for i in 0..=sqrt_limit`. -/
def v2Sieve (limit : Nat) : List Bool :=
  v2Loop (v2Size limit) (List.replicate (v2Size limit) true)
    (List.range (v2SqrtIdx limit + 1))

/-- `find_primes_v2` from `primes.rs`: `2` followed by the surviving odds. -/
def find_primes_v2 (limit : Nat) : List Nat :=
  if limit < 2 then []
  else if limit = 2 then [2]
  else 2 :: (((List.range (v2Size limit)).filter
      (fun i => (v2Sieve limit).getD i false)).map (fun i => 2 * i + 3))

theorem v2Loop_length (size : Nat) (l : List Bool) (idxs : List Nat) :
    (v2Loop size l idxs).length = l.length := by
  induction idxs generalizing l with
  | nil => rfl
  | cons i rest ih =>
    have hstep : v2Loop size l (i :: rest) =
        v2Loop size (if l.getD i false then
          markStep size (2 * i + 3) (((2 * i + 3) * (2 * i + 3) - 3) / 2) l else l) rest := rfl
    rw [hstep, ih]
    split
    · exact markStep_length ..
    · rfl

/-- Bridge between the odd-index marking progression and divisibility:
for odd `p ≥ 3` with start index `j0 = (p*p-3)/2`, index `j` is on the
progression iff `p` divides `2*j+3` and `p*p ≤ 2*j+3`. -/
theorem v2_progression_iff (p j : Nat) (hodd : p % 2 = 1) (hp3 : 3 ≤ p) :
    ((p * p - 3) / 2 ≤ j ∧ p ∣ (j - (p * p - 3) / 2)) ↔
      (p ∣ (2 * j + 3) ∧ p * p ≤ 2 * j + 3) := by
  have hsq_odd : (p * p) % 2 = 1 := by
    rw [Nat.mul_mod, hodd]
  have hsq_ge : 9 ≤ p * p := by nlinarith
  set j0 := (p * p - 3) / 2 with hj0
  have h2j0 : 2 * j0 = p * p - 3 := by omega
  constructor
  · rintro ⟨hle, hdvd⟩
    have h2dvd : p ∣ 2 * (j - j0) := Dvd.dvd.mul_left hdvd 2
    have heq : 2 * (j - j0) = (2 * j + 3) - p * p := by omega
    rw [heq] at h2dvd
    have hpp : p ∣ p * p := Dvd.intro p rfl
    have hge : p * p ≤ 2 * j + 3 := by omega
    constructor
    · have := Nat.dvd_add h2dvd hpp
      rwa [Nat.sub_add_cancel hge] at this
    · exact hge
  · rintro ⟨hdvd, hge⟩
    have hle : j0 ≤ j := by omega
    refine ⟨hle, ?_⟩
    have hpp : p ∣ p * p := Dvd.intro p rfl
    have hsub : p ∣ (2 * j + 3) - p * p := Nat.dvd_sub' hdvd hpp
    have heq : (2 * j + 3) - p * p = 2 * (j - j0) := by omega
    rw [heq] at hsub
    have hcop : Nat.Coprime p 2 := Nat.coprime_two_right.mpr (Nat.odd_iff.mpr hodd)
    exact hcop.dvd_of_dvd_mul_left hsub

/-- Invariant of the v2 outer loop: after processing indices `0 .. c-1`,
cell `j < size` is cleared iff some processed index `ii` carries a prime
`p = 2*ii+3` dividing `2*j+3` with `p*p ≤ 2*j+3`. -/
theorem v2Loop_invariant (size c : Nat) :
    ∀ j, j < size →
      ((v2Loop size (List.replicate size true) (List.range c)).getD j false = false ↔
        ∃ ii, ii < c ∧ (2 * ii + 3).Prime ∧ (2 * ii + 3) ∣ (2 * j + 3) ∧
          (2 * ii + 3) * (2 * ii + 3) ≤ 2 * j + 3) := by
  induction c with
  | zero =>
    intro j hj
    show (List.replicate size true).getD j false = false ↔ _
    rw [List.getD_eq_getElem?_getD, List.getElem?_replicate]
    simp [hj]
  | succ c ih =>
    intro j hj
    rw [List.range_succ]
    unfold v2Loop
    rw [List.foldl_append]
    set A := v2Loop size (List.replicate size true) (List.range c) with hA
    have hAlen : A.length = size := by rw [hA, v2Loop_length, List.length_replicate]
    set p := 2 * c + 3 with hp
    have hpodd : p % 2 = 1 := by omega
    have hp3 : 3 ≤ p := by omega
    show (if A.getD c false then markStep size p ((p * p - 3) / 2) A else A).getD j false
        = false ↔ _
    have hext : ∀ P : Nat → Prop, (∃ ii, ii < c + 1 ∧ P ii) ↔ (∃ ii, ii < c ∧ P ii) ∨ P c := by
      intro P
      constructor
      · rintro ⟨ii, hii, hPii⟩
        rcases Nat.lt_or_ge ii c with h | h
        · exact Or.inl ⟨ii, h, hPii⟩
        · right; have : ii = c := by omega
          rwa [← this]
      · rintro (⟨ii, hii, hPii⟩ | hPc)
        · exact ⟨ii, by omega, hPii⟩
        · exact ⟨c, by omega, hPc⟩
    by_cases hgc : A.getD c false = true
    · rw [if_pos hgc]
      have hcsize : c < size := by
        by_contra hge
        have : A.getD c false = false := by
          rw [List.getD_eq_getElem?_getD, List.getElem?_eq_none (by omega)]
          rfl
        rw [this] at hgc
        exact Bool.false_ne_true hgc
      -- p = 2c+3 survived the first c rounds, hence p is prime
      have hprime : p.Prime := by
        by_contra hnp
        have hm3 : 3 ≤ p := hp3
        have hmodd : p % 2 = 1 := hpodd
        have hq := Nat.minFac_prime (show p ≠ 1 by omega)
        have hqd := Nat.minFac_dvd p
        have hqsq : p.minFac * p.minFac ≤ p := by
          have := Nat.minFac_sq_le_self (show 0 < p by omega) hnp
          rwa [Nat.pow_two] at this
        have hqodd : p.minFac % 2 = 1 := by
          rcases Nat.even_or_odd p.minFac with he | ho
          · exfalso
            have h2 : p.minFac = 2 := (Nat.Prime.even_iff hq).mp he
            rw [h2] at hqd
            omega
          · exact Nat.odd_iff.mp ho
        have hq3 : 3 ≤ p.minFac := by
          have := hq.two_le
          omega
        have hqlt : p.minFac < p := by
          rcases Nat.eq_or_lt_of_le (Nat.minFac_le (show 0 < p by omega)) with he | h
          · exfalso; apply hnp; rw [← he]; exact hq
          · exact h
        set ii := (p.minFac - 3) / 2 with hii
        have hii_val : 2 * ii + 3 = p.minFac := by omega
        have hii_lt : ii < c := by omega
        have hfalse := (ih c hcsize).mpr ⟨ii, hii_lt, by rw [hii_val]; exact hq,
          by rw [hii_val]; exact hqd, by rw [hii_val]; exact hqsq⟩
        rw [hfalse] at hgc
        exact Bool.false_ne_true hgc
      rw [markStep_getD _ _ _ _ _ (by omega) (by omega)]
      by_cases hmark : (p * p - 3) / 2 ≤ j ∧ j < size ∧ p ∣ (j - (p * p - 3) / 2)
      · rw [if_pos hmark]
        have hbridge := (v2_progression_iff p j hpodd hp3).mp ⟨hmark.1, hmark.2.2⟩
        constructor
        · intro _
          rw [hext]
          exact Or.inr ⟨hprime, hbridge.1, hbridge.2⟩
        · intro _; rfl
      · rw [if_neg hmark]
        rw [ih j hj, hext]
        constructor
        · exact Or.inl
        · rintro (h | ⟨_, hd, hsq⟩)
          · exact h
          · exfalso
            apply hmark
            have := (v2_progression_iff p j hpodd hp3).mpr ⟨hd, hsq⟩
            exact ⟨this.1, hj, this.2⟩
    · rw [if_neg hgc]
      rw [ih j hj, hext]
      have hno : ¬ (p.Prime ∧ p ∣ (2 * j + 3) ∧ p * p ≤ 2 * j + 3) := by
        rintro ⟨hpp, hpd, hpsq⟩
        by_cases hcsize : c < size
        · have hfalse : A.getD c false = false := by
            cases hb : A.getD c false
            · rfl
            · exact absurd hb hgc
          have := (ih c hcsize).mp hfalse
          rcases this with ⟨ii, hii, hq, hqd, hqsq⟩
          have := (Nat.prime_dvd_prime_iff_eq hq hpp).mp hqd
          omega
        · have hle : p ≤ p * p := Nat.le_mul_of_pos_left p (by omega)
          omega
      constructor
      · exact Or.inl
      · rintro (h | h)
        · exact h
        · exact absurd h hno

/-- Final state of the v2 sieve (for `limit ≥ 3`): cell `j < size` holds
`true` iff `2*j+3` is prime. -/
theorem v2Sieve_getD (limit j : Nat) (hl : 3 ≤ limit) (hj : j < v2Size limit) :
    ((v2Sieve limit).getD j false = true) ↔ (2 * j + 3).Prime := by
  have hinv := v2Loop_invariant (v2Size limit) (v2SqrtIdx limit + 1) j hj
  have hm_le : 2 * j + 3 ≤ limit := by
    have hsz : 2 * v2Size limit ≤ limit - 1 := by
      unfold v2Size
      omega
    omega
  unfold v2Sieve
  constructor
  · intro htrue
    by_contra hnp
    set m := 2 * j + 3 with hm
    have hmodd : m % 2 = 1 := by omega
    have hq := Nat.minFac_prime (show m ≠ 1 by omega)
    have hqd := Nat.minFac_dvd m
    have hqsq : m.minFac * m.minFac ≤ m := by
      have := Nat.minFac_sq_le_self (show 0 < m by omega) hnp
      rwa [Nat.pow_two] at this
    have hqodd : m.minFac % 2 = 1 := by
      rcases Nat.even_or_odd m.minFac with he | ho
      · exfalso
        have h2 : m.minFac = 2 := (Nat.Prime.even_iff hq).mp he
        rw [h2] at hqd
        omega
      · exact Nat.odd_iff.mp ho
    have hq3 : 3 ≤ m.minFac := by
      have := hq.two_le
      omega
    have hqs : m.minFac ≤ Nat.sqrt limit := by
      apply Nat.le_sqrt.mpr
      omega
    set ii := (m.minFac - 3) / 2 with hii
    have hii_val : 2 * ii + 3 = m.minFac := by omega
    have hii_le : ii < v2SqrtIdx limit + 1 := by
      unfold v2SqrtIdx
      omega
    have hfalse := hinv.mpr ⟨ii, hii_le, by rw [hii_val]; exact hq,
      by rw [hii_val]; exact hqd, by rw [hii_val]; exact hqsq⟩
    rw [hfalse] at htrue
    exact Bool.false_ne_true htrue
  · intro hprime
    cases hb : (v2Loop (v2Size limit) (List.replicate (v2Size limit) true)
        (List.range (v2SqrtIdx limit + 1))).getD j false
    · exfalso
      rcases hinv.mp hb with ⟨ii, _, hq, hqd, hqsq⟩
      have heq := (Nat.prime_dvd_prime_iff_eq hq hprime).mp hqd
      rw [heq] at hqsq
      have h1 : 2 * (2 * j + 3) ≤ (2 * j + 3) * (2 * j + 3) :=
        Nat.mul_le_mul_right _ (by omega)
      omega
    · rfl

/-- `find_primes_v2 limit` contains exactly the primes up to `limit`. -/
theorem mem_find_primes_v2 (limit n : Nat) :
    n ∈ find_primes_v2 limit ↔ n.Prime ∧ n ≤ limit := by
  unfold find_primes_v2
  split
  · rename_i h
    simp only [List.not_mem_nil, false_iff]
    rintro ⟨hp, hle⟩
    have := hp.two_le
    omega
  · split
    · rename_i h0 h2
      subst h2
      simp only [List.mem_singleton]
      constructor
      · rintro rfl
        exact ⟨Nat.prime_two, le_refl 2⟩
      · rintro ⟨hp, hle⟩
        have := hp.two_le
        omega
    · rename_i h0 h2
      have hl3 : 3 ≤ limit := by omega
      rw [List.mem_cons, List.mem_map]
      constructor
      · rintro (rfl | ⟨j, hjf, rfl⟩)
        · exact ⟨Nat.prime_two, by omega⟩
        · rw [List.mem_filter, List.mem_range] at hjf
          refine ⟨(v2Sieve_getD limit j hl3 hjf.1).mp hjf.2, ?_⟩
          have hsz : 2 * v2Size limit ≤ limit - 1 := by
            unfold v2Size
            omega
          have := hjf.1
          omega
      · rintro ⟨hp, hle⟩
        rcases eq_or_ne n 2 with rfl | hne
        · exact Or.inl rfl
        · right
          have hodd : n % 2 = 1 := Nat.odd_iff.mp (hp.odd_of_ne_two hne)
          have h3 : 3 ≤ n := by
            have := hp.two_le
            omega
          refine ⟨(n - 3) / 2, ?_, by omega⟩
          rw [List.mem_filter, List.mem_range]
          have hval : 2 * ((n - 3) / 2) + 3 = n := by omega
          have hjlt : (n - 3) / 2 < v2Size limit := by
            unfold v2Size
            omega
          exact ⟨hjlt, (v2Sieve_getD limit _ hl3 hjlt).mpr (by rw [hval]; exact hp)⟩

/-- `find_primes_v2` is strictly ascending. -/
theorem find_primes_v2_sorted (limit : Nat) :
    (find_primes_v2 limit).Pairwise (· < ·) := by
  unfold find_primes_v2
  split
  · exact List.Pairwise.nil
  · split
    · simp
    · rw [List.pairwise_cons]
      constructor
      · intro x hx
        rw [List.mem_map] at hx
        rcases hx with ⟨j, _, rfl⟩
        omega
      · rw [List.pairwise_map]
        exact ((List.pairwise_lt_range _).filter _).imp (fun h => by omega)

/-- The tail of `find_primes_v2 limit` (what the segment code iterates with
`small_primes.iter().skip(1)`) contains exactly the odd primes up to `limit`. -/
theorem mem_find_primes_v2_tail (limit p : Nat) :
    p ∈ (find_primes_v2 limit).tail ↔ p.Prime ∧ p ≤ limit ∧ p ≠ 2 := by
  unfold find_primes_v2
  split
  · rename_i h
    simp only [List.tail_nil, List.not_mem_nil, false_iff]
    rintro ⟨hp, hle, _⟩
    have := hp.two_le
    omega
  · split
    · rename_i h0 h2
      subst h2
      simp only [List.tail_cons, List.not_mem_nil, false_iff]
      rintro ⟨hp, hle, hne⟩
      have := hp.two_le
      omega
    · rename_i h0 h2
      have hl3 : 3 ≤ limit := by omega
      rw [List.tail_cons, List.mem_map]
      constructor
      · rintro ⟨j, hjf, rfl⟩
        rw [List.mem_filter, List.mem_range] at hjf
        refine ⟨(v2Sieve_getD limit j hl3 hjf.1).mp hjf.2, ?_, by omega⟩
        have hsz : 2 * v2Size limit ≤ limit - 1 := by
          unfold v2Size
          omega
        have := hjf.1
        omega
      · rintro ⟨hp, hle, hne⟩
        have hodd : p % 2 = 1 := Nat.odd_iff.mp (hp.odd_of_ne_two hne)
        have h3 : 3 ≤ p := by
          have := hp.two_le
          omega
        refine ⟨(p - 3) / 2, ?_, by omega⟩
        rw [List.mem_filter, List.mem_range]
        have hval : 2 * ((p - 3) / 2) + 3 = p := by omega
        have hjlt : (p - 3) / 2 < v2Size limit := by
          unfold v2Size
          omega
        exact ⟨hjlt, (v2Sieve_getD limit _ hl3 hjlt).mpr (by rw [hval]; exact hp)⟩

/-- Members of the v2 tail are odd and at least 3. -/
theorem v2_tail_odd (limit p : Nat) (h : p ∈ (find_primes_v2 limit).tail) :
    p % 2 = 1 ∧ 3 ≤ p := by
  rcases (mem_find_primes_v2_tail limit p).mp h with ⟨hp, _, hne⟩
  have hodd : p % 2 = 1 := Nat.odd_iff.mp (hp.odd_of_ne_two hne)
  have := hp.two_le
  omega

/-! ## Segment machinery shared by variations 5-9.
The per-segment bit buffer is modelled as `Nat → Bool` (bit index `i`
stands for the odd number `seg_low + 2*i`); `clear_bit` is a function
update. -/

/-- `low = (sqrt_limit + 1) | 1; if low % 2 == 0 { low += 1; }` from the
segmented variations: first odd number after `sqrt_limit` (the `if` is
dead code, kept for faithfulness). -/
def segStartLow (sqrt_limit : Nat) : Nat :=
  let low0 := (sqrt_limit + 1) ||| 1
  if low0 % 2 = 0 then low0 + 1 else low0

/-- The `while start <= high` loop marking one prime's multiples in a
segment: clears bit `(start - seg_low) / 2` and advances by `step`
(the code uses `step = p * 2`). -/
def clearLoop (sLow high step : Nat) (start : Nat) (buf : Nat → Bool) : Nat → Bool :=
  if h : step = 0 ∨ high < start then buf
  else
    clearLoop sLow high step (start + step)
      (fun i => if i = (start - sLow) / 2 then false else buf i)
termination_by high + 1 - start
decreasing_by
  push_neg at h
  omega

/-- Marking of one odd prime `p` inside the segment `[sLow, high]`:
first multiple of `p` at or above `sLow`, made odd, then every second
multiple (`start += p * 2`). -/
def segMarkPrime (sLow high : Nat) (buf : Nat → Bool) (p : Nat) : Nat → Bool :=
  let start0 := ((sLow + p - 1) / p) * p
  let start := if start0 % 2 = 0 then start0 + p else start0
  clearLoop sLow high (2 * p) start buf

/-- The fully marked segment buffer: all bits `true`, then each small prime
after the first (`small_primes.iter().skip(1)`) marks its multiples. -/
def segBuf (smallPrimes : List Nat) (sLow high : Nat) : Nat → Bool :=
  (smallPrimes.tail).foldl (segMarkPrime sLow high) (fun _ => true)

/-- Bit extraction of variation 9 (`num <= seg_high` guard): ascending
numbers of the set bits. -/
def segExtract (buf : Nat → Bool) (sLow sHigh : Nat) : List Nat :=
  (List.range SEGMENT_SIZE_BITS).filterMap (fun i =>
    if buf i = true ∧ sLow + 2 * i ≤ sHigh then some (sLow + 2 * i) else none)

/-- Bit extraction of `find_primes_v5` (no guard: every set bit is pushed). -/
def segExtractAll (buf : Nat → Bool) (sLow : Nat) : List Nat :=
  (List.range SEGMENT_SIZE_BITS).filterMap (fun i =>
    if buf i = true then some (sLow + 2 * i) else none)

/-- Bit extraction of `find_primes_v5_streaming` (`num < limit` guard). -/
def segExtractLt (buf : Nat → Bool) (sLow limit : Nat) : List Nat :=
  (List.range SEGMENT_SIZE_BITS).filterMap (fun i =>
    if buf i = true ∧ sLow + 2 * i < limit then some (sLow + 2 * i) else none)

/-- The `while low <= limit` segment loop of `find_primes_v5`. -/
def v5Segments (limit : Nat) (small : List Nat) (low : Nat) : List Nat :=
  if h : limit < low then []
  else
    segExtractAll (segBuf small low (low + SEGMENT_SIZE_NUMBERS - 1)) low ++
      v5Segments limit small (low + SEGMENT_SIZE_NUMBERS)
termination_by limit + 1 - low
decreasing_by
  push_neg at h
  have hpos : 0 < SEGMENT_SIZE_NUMBERS := by decide
  omega

/-- The `while low <= limit` segment loop of `find_primes_v5_streaming`. -/
def v5SegmentsStreaming (limit : Nat) (small : List Nat) (low : Nat) : List Nat :=
  if h : limit < low then []
  else
    segExtractLt (segBuf small low (low + SEGMENT_SIZE_NUMBERS - 1)) low limit ++
      v5SegmentsStreaming limit small (low + SEGMENT_SIZE_NUMBERS)
termination_by limit + 1 - low
decreasing_by
  push_neg at h
  have hpos : 0 < SEGMENT_SIZE_NUMBERS := by decide
  omega

/-! ## The remaining in-memory variations (`find_primes_v3`, `v4`, `v5`) -/

/-- `find_primes_v3` from `primes.rs`: bit-packed full sieve.  Its loop is
bit-for-bit the v1 loop (`get_bit`/`clear_bit` on the packed words are the
`getD`/`set` of the bit list), so the same loop embedding is used over its
own initial array. -/
def v3Init (limit : Nat) : List Bool :=
  ((List.replicate (limit + 1) true).set 0 false).set 1 false

def v3Sieve (limit : Nat) : List Bool :=
  v1Loop limit (v3Init limit) (List.range' 2 (Nat.sqrt limit - 1))

def find_primes_v3 (limit : Nat) : List Nat :=
  if limit < 2 then []
  else (List.range (limit + 1)).filter (fun n => (v3Sieve limit).getD n false)

/-- `find_primes_v4` from `primes.rs`: odd-only bit-packed sieve.  Identical
to the v2 loop except the outer bound `sqrt_limit.min(odd_count - 1)`. -/
def v4Sieve (limit : Nat) : List Bool :=
  v2Loop (v2Size limit) (List.replicate (v2Size limit) true)
    (List.range (min (v2SqrtIdx limit) (v2Size limit - 1) + 1))

def find_primes_v4 (limit : Nat) : List Nat :=
  if limit < 2 then []
  else if limit = 2 then [2]
  else 2 :: (((List.range (v2Size limit)).filter
      (fun i => (v4Sieve limit).getD i false)).map (fun i => 2 * i + 3))

/-- `find_primes_v5` from `primes.rs`: single-threaded segmented sieve. -/
def find_primes_v5 (limit : Nat) : List Nat :=
  if limit < 2 then []
  else if limit = 2 then [2]
  else
    let small := find_primes_v2 (Nat.sqrt limit)
    small ++ v5Segments limit small (segStartLow (Nat.sqrt limit))

/-! ## Streaming variations (`find_primes_vN_streaming`): the channel is
modelled by the list of sent values, in send order. -/

/-- `find_primes_v1_streaming`: sends each surviving index in order, which
is exactly the list `find_primes_v1` collects. -/
def find_primes_v1_streaming (limit : Nat) : List Nat :=
  if limit < 2 then []
  else (List.range (limit + 1)).filter (fun n => (v1Sieve limit).getD n false)

/-- `find_primes_v2_streaming`: sends 2, then each surviving odd in order. -/
def find_primes_v2_streaming (limit : Nat) : List Nat :=
  if limit < 2 then []
  else if limit = 2 then [2]
  else 2 :: (((List.range (v2Size limit)).filter
      (fun i => (v2Sieve limit).getD i false)).map (fun i => 2 * i + 3))

/-- Phase 1 of `find_primes_v3_streaming`: the sieving fold that also sends
each prime `2*i+3` the moment its cell is seen `true`. -/
def v3sPhase1 (size : Nat) (lp : List Bool × List Nat) (idxs : List Nat) :
    List Bool × List Nat :=
  idxs.foldl (fun lp i =>
    if lp.1.getD i false then
      (markStep size (2 * i + 3) (((2 * i + 3) * (2 * i + 3) - 3) / 2) lp.1,
        lp.2 ++ [2 * i + 3])
    else lp) lp

/-- `find_primes_v3_streaming`: 2 first, then the phase-1 sends, then the
survivors above `sqrt_limit`. -/
def find_primes_v3_streaming (limit : Nat) : List Nat :=
  if limit < 2 then []
  else if limit = 2 then [2]
  else
    let size := v2Size limit
    let sqrtIdx := v2SqrtIdx limit
    let phase1 := v3sPhase1 size (List.replicate size true, []) (List.range (sqrtIdx + 1))
    2 :: (phase1.2 ++
      ((List.range' (sqrtIdx + 1) (size - (sqrtIdx + 1))).filter
        (fun i => phase1.1.getD i false)).map (fun i => 2 * i + 3))

/-- `find_primes_v4_streaming`: sends what `find_primes_v4` collects, in the
same order. -/
def find_primes_v4_streaming (limit : Nat) : List Nat :=
  if limit < 2 then []
  else if limit = 2 then [2]
  else 2 :: (((List.range (v2Size limit)).filter
      (fun i => (v4Sieve limit).getD i false)).map (fun i => 2 * i + 3))

/-- `find_primes_v5_streaming`: small primes first, then each segment's
survivors below `limit` (strict `num < limit` guard). -/
def find_primes_v5_streaming (limit : Nat) : List Nat :=
  if limit < 2 then []
  else if limit = 2 then [2]
  else
    let small := find_primes_v2 (Nat.sqrt limit)
    small ++ v5SegmentsStreaming limit small (segStartLow (Nat.sqrt limit))

/-! ## Dispatchers (`find_primes`, `find_primes_streaming` in `primes.rs`).
The second component records whether the unknown-variation warning was
printed to stderr. -/

/-- `find_primes(limit, variation)`: match on the variation, defaulting to
variation 1 with a warning. -/
def find_primes (limit : Nat) (variation : Nat) : List Nat × Bool :=
  if variation = 1 then (find_primes_v1 limit, false)
  else if variation = 2 then (find_primes_v2 limit, false)
  else if variation = 3 then (find_primes_v3 limit, false)
  else if variation = 4 then (find_primes_v4 limit, false)
  else if variation = 5 then (find_primes_v5 limit, false)
  else (find_primes_v1 limit, true)

/-- `find_primes_streaming(limit, variation, sender)`: the list of values
sent, and whether the unknown-variation warning was printed. -/
def find_primes_streaming (limit : Nat) (variation : Nat) : List Nat × Bool :=
  if variation = 1 then (find_primes_v1_streaming limit, false)
  else if variation = 2 then (find_primes_v2_streaming limit, false)
  else if variation = 3 then (find_primes_v3_streaming limit, false)
  else if variation = 4 then (find_primes_v4_streaming limit, false)
  else if variation = 5 then (find_primes_v5_streaming limit, false)
  else (find_primes_v1_streaming limit, true)

/-! ## Variation 9 pipeline (`find_primes_v9_multi_consumers` plus the
`effective_limit` adjustment in `main.rs`). -/

theorem lor_one_eq (m : Nat) : m ||| 1 = if m % 2 = 0 then m + 1 else m := by
  apply Nat.eq_of_testBit_eq
  intro i
  cases i with
  | zero =>
    rw [Nat.testBit_lor]
    simp only [Nat.testBit_zero]
    split <;> rename_i h <;> simp <;> omega
  | succ j =>
    rw [Nat.testBit_lor]
    rw [Nat.testBit_succ, Nat.testBit_succ, Nat.testBit_succ]
    have h3 : (1 : Nat) / 2 = 0 := by norm_num
    have h4 : (if m % 2 = 0 then m + 1 else m) / 2 = m / 2 := by
      split <;> omega
    rw [h3, h4]
    simp

/-- `segStartLow` is the first odd number greater than `sqrt_limit`. -/
theorem segStartLow_eq (s : Nat) :
    segStartLow s = if (s + 1) % 2 = 0 then s + 2 else s + 1 := by
  unfold segStartLow
  rw [lor_one_eq]
  rcases Nat.even_or_odd (s + 1) with he | ho
  · have h0 : (s + 1) % 2 = 0 := Nat.even_iff.mp he
    simp only [h0]
    norm_num
    omega
  · have h1 : (s + 1) % 2 = 1 := Nat.odd_iff.mp ho
    simp only [h1]
    norm_num
    omega

theorem segStartLow_odd (s : Nat) : segStartLow s % 2 = 1 := by
  rw [segStartLow_eq]
  split <;> omega

theorem segStartLow_bounds (s : Nat) : s < segStartLow s ∧ segStartLow s ≤ s + 2 := by
  rw [segStartLow_eq]
  split <;> omega

/-- The limit adjustment of `main.rs` (`Commands::Primes`, variations 5-9):
round the requested limit up to a whole number of segments past `low`. -/
def effectiveLimit (limit : Nat) : Nat :=
  let sqrt_limit := Nat.sqrt limit
  let low := segStartLow sqrt_limit
  let range_to_cover := if low ≤ limit then limit - low + 1 else 0
  let num_segments := (range_to_cover + SEGMENT_SIZE_NUMBERS - 1) / SEGMENT_SIZE_NUMBERS
  low + num_segments * SEGMENT_SIZE_NUMBERS - 1

/-- `total_segments` computed inside `find_primes_v9_multi_consumers`. -/
def v9TotalSegments (limit sqrt_limit : Nat) : Nat :=
  if segStartLow sqrt_limit ≤ limit then
    ((limit - segStartLow sqrt_limit + 1) + SEGMENT_SIZE_NUMBERS - 1) / SEGMENT_SIZE_NUMBERS
  else 0

/-- `seg_low` of segment `idx` (0-based worker index). -/
def segLow (sqrt_limit idx : Nat) : Nat :=
  segStartLow sqrt_limit + idx * SEGMENT_SIZE_NUMBERS

/-- `seg_high = (seg_low + SEGMENT_SIZE_NUMBERS - 1).min(limit)`. -/
def segHigh (limit sqrt_limit idx : Nat) : Nat :=
  min (segLow sqrt_limit idx + SEGMENT_SIZE_NUMBERS - 1) limit

/-- The ascending prime list a v9 worker extracts from segment `idx`. -/
def segmentValues (limit sqrt_limit idx : Nat) : List Nat :=
  segExtract
    (segBuf (find_primes_v2 sqrt_limit) (segLow sqrt_limit idx) (segHigh limit sqrt_limit idx))
    (segLow sqrt_limit idx) (segHigh limit sqrt_limit idx)

/-- The `SegmentPrimes` message for segment `idx`
(`segment_id = segment_idx + 1`; id 0 is reserved for the small primes). -/
def segmentPrimesAt (limit sqrt_limit idx : Nat) : SegmentPrimes :=
  { primes := segmentValues limit sqrt_limit idx, segment_id := idx + 1 }

/-- The small-prime list `find_primes_v9_multi_consumers` returns (written to
the privileged `primes_small.bin` by `save_small_primes_binary`); empty on
the early-return paths. -/
def v9SmallPrimes (limit sqrt_limit num_consumers : Nat) : List Nat :=
  if limit < 2 then []
  else if num_consumers = 0 then []
  else if segStartLow sqrt_limit ≤ limit then find_primes_v2 sqrt_limit
  else []

/-- The router: segment `S` goes to `senders[(S - 1) % num_consumers]`,
which is the consumer with 1-based id `(S - 1) % num_consumers + 1`. -/
def routedConsumer (num_consumers segment_id : Nat) : Nat :=
  (segment_id - 1) % num_consumers + 1

/-- The segments routed to consumer `c`, in ascending id order. -/
def assignedSegs (limit sqrt_limit K c : Nat) : List SegmentPrimes :=
  (List.range (v9TotalSegments limit sqrt_limit)).filterMap (fun idx =>
    if routedConsumer K (idx + 1) = c then some (segmentPrimesAt limit sqrt_limit idx)
    else none)

/-! ### Characterizing the segment marking. -/

/-- The start of the marking progression for prime `p` in a segment at
`sLow`: first multiple of `p` at or above `sLow`, bumped by `p` if even. -/
def segMarkStart (sLow p : Nat) : Nat :=
  if ((sLow + p - 1) / p) * p % 2 = 0 then ((sLow + p - 1) / p) * p + p
  else ((sLow + p - 1) / p) * p

theorem segMarkPrime_eq_clearLoop (sLow high : Nat) (buf : Nat → Bool) (p : Nat) :
    segMarkPrime sLow high buf p = clearLoop sLow high (2 * p) (segMarkStart sLow p) buf := by
  unfold segMarkPrime segMarkStart
  simp only []

theorem segMarkStart_spec (sLow p : Nat) (hp3 : 3 ≤ p) (hpodd : p % 2 = 1) :
    p ∣ segMarkStart sLow p ∧ segMarkStart sLow p % 2 = 1 ∧
      sLow ≤ segMarkStart sLow p ∧ segMarkStart sLow p < sLow + 2 * p := by
  unfold segMarkStart
  have hp0 : 0 < p := by omega
  set q := (sLow + p - 1) / p with hq
  have hmod := Nat.div_add_mod (sLow + p - 1) p
  rw [← hq] at hmod
  have hmlt : (sLow + p - 1) % p < p := Nat.mod_lt _ hp0
  have hqp : q * p = p * q := Nat.mul_comm q p
  have hle : q * p ≤ sLow + p - 1 := by omega
  have hge : sLow ≤ q * p := by omega
  have hdvd : p ∣ q * p := Nat.dvd_mul_left p q
  split
  · rename_i heven
    exact ⟨Nat.dvd_add hdvd (Nat.dvd_refl p), by omega, by omega, by omega⟩
  · rename_i hodd
    exact ⟨hdvd, by omega, hge, by omega⟩

/-- Any odd multiple of `p` at or above `sLow` is at or above the marking
start. -/
theorem segMarkStart_min (sLow p m : Nat) (hp3 : 3 ≤ p) (hpodd : p % 2 = 1)
    (hm : p ∣ m) (hmodd : m % 2 = 1) (hge : sLow ≤ m) :
    segMarkStart sLow p ≤ m := by
  unfold segMarkStart
  have hp0 : 0 < p := by omega
  set q := (sLow + p - 1) / p with hq
  have hmod := Nat.div_add_mod (sLow + p - 1) p
  rw [← hq] at hmod
  have hmlt : (sLow + p - 1) % p < p := Nat.mod_lt _ hp0
  have hqp : q * p = p * q := Nat.mul_comm q p
  have hle : q * p ≤ sLow + p - 1 := by omega
  rcases hm with ⟨a, rfl⟩
  have haq : q ≤ a := by
    by_contra hlt
    push_neg at hlt
    have hstep : p * a + p ≤ p * q := by
      have h1 : a + 1 ≤ q := by omega
      have := Nat.mul_le_mul_left p h1
      rw [Nat.mul_add, Nat.mul_one] at this
      exact this
    omega
  have hqa : q * p ≤ p * a := by
    rw [hqp]
    exact Nat.mul_le_mul_left p haq
  split
  · rename_i heven
    -- q*p is even while p*a is odd, so a > q
    have hane : q ≠ a := by
      rintro rfl
      have : p * q % 2 = 1 := by
        rw [← hqp]
        omega
      omega
    have hstep : p * (q + 1) ≤ p * a := Nat.mul_le_mul_left p (by omega)
    rw [Nat.mul_add, Nat.mul_one] at hstep
    omega
  · omega

/-- Odd multiples of odd `p` at or above `sLow` are exactly the members of
the stride-`2p` progression from `segMarkStart sLow p`. -/
theorem odd_multiple_iff_progression (sLow p m : Nat) (hp3 : 3 ≤ p)
    (hpodd : p % 2 = 1) :
    (p ∣ m ∧ m % 2 = 1 ∧ sLow ≤ m) ↔
      (∃ k, m = segMarkStart sLow p + 2 * p * k) := by
  have hp0 : 0 < p := by omega
  obtain ⟨hsd, hsodd, hsge, hslt⟩ := segMarkStart_spec sLow p hp3 hpodd
  set s := segMarkStart sLow p with hs
  constructor
  · rintro ⟨hdvd, hmodd, hge⟩
    have hmin : s ≤ m := segMarkStart_min sLow p m hp3 hpodd hdvd hmodd hge
    rcases hdvd with ⟨a, rfl⟩
    rcases hsd with ⟨b, hb⟩
    have haodd : a % 2 = 1 := by
      have := Nat.mul_mod p a 2
      rw [hpodd] at this
      omega
    have hbodd : b % 2 = 1 := by
      have h1 := hsodd
      rw [hb] at h1
      have := Nat.mul_mod p b 2
      rw [hpodd] at this
      omega
    have hba : b ≤ a := by
      have h1 : p * b ≤ p * a := by rw [← hb]; exact hmin
      exact Nat.le_of_mul_le_mul_left h1 hp0
    refine ⟨(a - b) / 2, ?_⟩
    have h2 : a - b = 2 * ((a - b) / 2) := by omega
    calc p * a = p * (b + (a - b)) := by congr 1; omega
      _ = p * b + p * (a - b) := by rw [Nat.mul_add]
      _ = p * b + p * (2 * ((a - b) / 2)) := by rw [← h2]
      _ = p * b + 2 * p * ((a - b) / 2) := by ring
      _ = s + 2 * p * ((a - b) / 2) := by rw [← hb]
  · rintro ⟨k, rfl⟩
    have hassoc : 2 * p * k = 2 * (p * k) := by ring
    refine ⟨?_, by omega, by omega⟩
    apply Nat.dvd_add hsd
    rw [hassoc]
    exact Dvd.dvd.mul_left (Nat.dvd_mul_right p k) 2

/-- What `clearLoop` clears: cell `i` is `false` iff it was already, or `i`
is the bit of a progression member `start + step*k ≤ high`. -/
theorem clearLoop_false_iff (sLow high step start : Nat) (buf : Nat → Bool)
    (i : Nat) (hstep : 0 < step) :
    (clearLoop sLow high step start buf i = false ↔
      buf i = false ∨ ∃ k, start + step * k ≤ high ∧ i = (start + step * k - sLow) / 2) := by
  unfold clearLoop
  split
  · rename_i h
    rcases h with h | h
    · omega
    · constructor
      · exact Or.inl
      · rintro (hb | ⟨k, hk1, _⟩)
        · exact hb
        · exfalso
          have : step * k ≥ 0 := Nat.zero_le _
          omega
  · rename_i h
    push_neg at h
    rw [clearLoop_false_iff sLow high step (start + step) _ i hstep]
    have hmulsucc : ∀ k : Nat, step * (k + 1) = step * k + step := fun k => Nat.mul_succ step k
    constructor
    · rintro (hb | ⟨k, hk1, hk2⟩)
      · by_cases hi : i = (start - sLow) / 2
        · right
          refine ⟨0, ?_, ?_⟩
          · simp
            omega
          · simpa using hi
        · left
          simpa [hi] using hb
      · right
        refine ⟨k + 1, ?_, ?_⟩
        · rw [hmulsucc]
          omega
        · rw [hmulsucc]
          rw [hk2]
          congr 1
          omega
    · rintro (hb | ⟨k, hk1, hk2⟩)
      · left
        by_cases hi : i = (start - sLow) / 2 <;> simp [hi, hb]
      · cases k with
        | zero =>
          left
          simp only [Nat.mul_zero, Nat.add_zero] at hk1 hk2
          simp [hk2]
        | succ k' =>
          right
          refine ⟨k', ?_, ?_⟩
          · rw [hmulsucc] at hk1
            omega
          · rw [hmulsucc] at hk2
            rw [hk2]
            congr 1
            omega
termination_by high + 1 - start
decreasing_by
  rename_i h
  push_neg at h
  omega

/-- What one prime's segment marking clears, in terms of the represented
number `sLow + 2*i`. -/
theorem segMarkPrime_false_iff (sLow high p : Nat) (buf : Nat → Bool) (i : Nat)
    (hp3 : 3 ≤ p) (hpodd : p % 2 = 1) (hlodd : sLow % 2 = 1) :
    (segMarkPrime sLow high buf p i = false ↔
      buf i = false ∨ (p ∣ (sLow + 2 * i) ∧ sLow + 2 * i ≤ high)) := by
  rw [segMarkPrime_eq_clearLoop]
  rw [clearLoop_false_iff sLow high (2 * p) _ buf i (by omega)]
  obtain ⟨hsd, hsodd, hsge, hslt⟩ := segMarkStart_spec sLow p hp3 hpodd
  set s := segMarkStart sLow p with hs
  constructor
  · rintro (hb | ⟨k, hk1, hk2⟩)
    · exact Or.inl hb
    · right
      have hmem : p ∣ (s + 2 * p * k) ∧ (s + 2 * p * k) % 2 = 1 ∧ sLow ≤ s + 2 * p * k :=
        (odd_multiple_iff_progression sLow p _ hp3 hpodd).mpr ⟨k, rfl⟩
      have hval : sLow + 2 * i = s + 2 * p * k := by
        have h2 : 2 * p * k = 2 * (p * k) := by ring
        omega
      rw [hval]
      exact ⟨hmem.1, hk1⟩
  · rintro (hb | ⟨hdvd, hle⟩)
    · exact Or.inl hb
    · right
      have hmodd : (sLow + 2 * i) % 2 = 1 := by omega
      have hge : sLow ≤ sLow + 2 * i := by omega
      obtain ⟨k, hk⟩ :=
        (odd_multiple_iff_progression sLow p _ hp3 hpodd).mp ⟨hdvd, hmodd, hge⟩
      refine ⟨k, by omega, ?_⟩
      have h2 : 2 * p * k = 2 * (p * k) := by ring
      omega

/-- What the whole list of odd primes clears, by induction on the list. -/
theorem segBufAux_false_iff (sLow high : Nat) (l : List Nat)
    (hlodd : sLow % 2 = 1) (hl : ∀ p ∈ l, p % 2 = 1 ∧ 3 ≤ p) :
    ∀ (buf : Nat → Bool) (i : Nat),
      (l.foldl (segMarkPrime sLow high) buf i = false ↔
        buf i = false ∨ ∃ p ∈ l, p ∣ (sLow + 2 * i) ∧ sLow + 2 * i ≤ high) := by
  induction l with
  | nil =>
    intro buf i
    simp
  | cons p rest ih =>
    intro buf i
    have hp := hl p (List.mem_cons_self p rest)
    have hrest : ∀ q ∈ rest, q % 2 = 1 ∧ 3 ≤ q := fun q hq => hl q (List.mem_cons_of_mem p hq)
    show (rest.foldl (segMarkPrime sLow high) (segMarkPrime sLow high buf p) i = false ↔ _)
    rw [ih hrest (segMarkPrime sLow high buf p) i]
    rw [segMarkPrime_false_iff sLow high p buf i hp.2 hp.1 hlodd]
    constructor
    · rintro ((hb | hdp) | ⟨q, hq, hqc⟩)
      · exact Or.inl hb
      · exact Or.inr ⟨p, List.mem_cons_self p rest, hdp⟩
      · exact Or.inr ⟨q, List.mem_cons_of_mem p hq, hqc⟩
    · rintro (hb | ⟨q, hq, hqc⟩)
      · exact Or.inl (Or.inl hb)
      · rcases List.mem_cons.mp hq with rfl | hq'
        · exact Or.inl (Or.inr hqc)
        · exact Or.inr ⟨q, hq', hqc⟩

/-- Final segment buffer: bit `i` survives iff no odd small prime divides
`sLow + 2*i` within the segment bound. -/
theorem segBuf_true_iff (smallPrimes : List Nat) (sLow high i : Nat)
    (hlodd : sLow % 2 = 1)
    (hl : ∀ p ∈ smallPrimes.tail, p % 2 = 1 ∧ 3 ≤ p) :
    (segBuf smallPrimes sLow high i = true ↔
      ∀ p ∈ smallPrimes.tail, ¬ (p ∣ (sLow + 2 * i) ∧ sLow + 2 * i ≤ high)) := by
  have hfalse := segBufAux_false_iff sLow high smallPrimes.tail hlodd hl (fun _ => true) i
  unfold segBuf
  constructor
  · intro htrue p hp hc
    have : smallPrimes.tail.foldl (segMarkPrime sLow high) (fun _ => true) i = false :=
      hfalse.mpr (Or.inr ⟨p, hp, hc⟩)
    rw [htrue] at this
    simp at this
  · intro hno
    cases hb : smallPrimes.tail.foldl (segMarkPrime sLow high) (fun _ => true) i
    · exfalso
      rcases hfalse.mp hb with h | ⟨p, hp, hc⟩
      · simp at h
      · exact hno p hp hc
    · rfl

theorem segLow_odd (s idx : Nat) : segLow s idx % 2 = 1 := by
  unfold segLow
  have h2 : 2 ∣ SEGMENT_SIZE_NUMBERS := Nat.dvd_mul_left 2 SEGMENT_SIZE_BITS
  have h2i : 2 ∣ idx * SEGMENT_SIZE_NUMBERS := Dvd.dvd.mul_left h2 idx
  have := segStartLow_odd s
  omega

/-- Membership in a v9 segment's value list: the odd numbers of the segment
range, not divisible by any odd small prime, up to `seg_high`. -/
theorem mem_segmentValues (limit s idx n : Nat) :
    n ∈ segmentValues limit s idx ↔
      ∃ i, i < SEGMENT_SIZE_BITS ∧ n = segLow s idx + 2 * i ∧
        n ≤ segHigh limit s idx ∧
        ∀ p ∈ (find_primes_v2 s).tail, ¬ p ∣ n := by
  unfold segmentValues segExtract
  rw [List.mem_filterMap]
  have hlodd := segLow_odd s idx
  have htail : ∀ p ∈ (find_primes_v2 s).tail, p % 2 = 1 ∧ 3 ≤ p :=
    fun p hp => v2_tail_odd s p hp
  constructor
  · rintro ⟨i, hi, hsome⟩
    rw [List.mem_range] at hi
    split at hsome
    · rename_i hcond
      rcases hcond with ⟨hbuf, hle⟩
      have hval : n = segLow s idx + 2 * i := by
        cases hsome
        rfl
      have hchar := (segBuf_true_iff (find_primes_v2 s) (segLow s idx)
        (segHigh limit s idx) i hlodd htail).mp hbuf
      refine ⟨i, hi, hval, by rw [hval]; exact hle, ?_⟩
      intro p hp hd
      exact hchar p hp ⟨by rw [← hval]; exact hd, by rw [← hval] at hle ⊢; exact hle⟩
    · simp at hsome
  · rintro ⟨i, hi, hval, hle, hnd⟩
    refine ⟨i, List.mem_range.mpr hi, ?_⟩
    have hbuf : segBuf (find_primes_v2 s) (segLow s idx) (segHigh limit s idx) i = true := by
      rw [segBuf_true_iff _ _ _ _ hlodd htail]
      intro p hp hc
      exact hnd p hp (by rw [hval]; exact hc.1)
    rw [if_pos ⟨hbuf, by rw [← hval]; exact hle⟩]
    rw [hval]

/-- Segment value lists are strictly ascending. -/
theorem segmentValues_sorted (limit s idx : Nat) :
    (segmentValues limit s idx).Pairwise (· < ·) := by
  unfold segmentValues segExtract
  rw [List.pairwise_filterMap]
  refine (List.pairwise_lt_range _).imp ?_
  intro a b hab
  intro x hx y hy
  split at hx
  · split at hy
    · simp only [Option.mem_def, Option.some.injEq] at hx hy
      omega
    · simp at hy
  · simp at hx

/-- Bounds of segment values: within `[segLow, segLow + SEG - 2]`. -/
theorem segmentValues_bounds (limit s idx n : Nat)
    (h : n ∈ segmentValues limit s idx) :
    segLow s idx ≤ n ∧ n ≤ segLow s idx + SEGMENT_SIZE_NUMBERS - 2 := by
  rcases (mem_segmentValues limit s idx n).mp h with ⟨i, hi, hval, _, _⟩
  have hssb : SEGMENT_SIZE_NUMBERS = 2 * SEGMENT_SIZE_BITS := by
    unfold SEGMENT_SIZE_NUMBERS
    ring
  omega

/-! ## Consumer model (`save_primes_multi_consumer_binary` in `storage.rs`).
The `BTreeMap<usize, SegmentPrimes>` reorder buffer is modelled as a list
kept in ascending `segment_id` order; the consumer thread is a fold over
its arrival list.  `next_expected_id` starts at `consumer_id` and advances
by `num_consumers`. -/

/-- `BTreeMap::insert` keyed by `segment_id` (an equal key replaces). -/
def bufInsert (s : SegmentPrimes) : List SegmentPrimes → List SegmentPrimes
  | [] => [s]
  | x :: xs =>
    if s.segment_id < x.segment_id then s :: x :: xs
    else if s.segment_id = x.segment_id then s :: xs
    else x :: bufInsert s xs

/-- `BTreeMap::remove(&next_expected_id)`. -/
def bufRemove (id : Nat) : List SegmentPrimes → Option (SegmentPrimes × List SegmentPrimes)
  | [] => none
  | x :: xs =>
    if x.segment_id = id then some (x, xs)
    else
      match bufRemove id xs with
      | none => none
      | some (s, rest) => some (s, x :: rest)

/-- Consumer-thread state: reorder buffer, `next_expected_id`, and the
sequence of segments already written to the file. -/
structure CState where
  buf : List SegmentPrimes
  next : Nat
  out : List SegmentPrimes

theorem bufRemove_length (id : Nat) :
    ∀ (l : List SegmentPrimes) (s : SegmentPrimes) (rest : List SegmentPrimes),
      bufRemove id l = some (s, rest) → rest.length + 1 = l.length := by
  intro l
  induction l with
  | nil => intro s rest h; simp [bufRemove] at h
  | cons x xs ih =>
    intro s rest h
    rw [bufRemove] at h
    split at h
    · cases h
      simp
    · cases hm : bufRemove id xs with
      | none => rw [hm] at h; cases h
      | some pr =>
        rw [hm] at h
        cases h
        have hlen := ih pr.1 pr.2 (by rw [hm])
        simp only [List.length_cons]
        omega

theorem bufRemove_none_iff (id : Nat) (l : List SegmentPrimes) :
    bufRemove id l = none ↔ ∀ s ∈ l, s.segment_id ≠ id := by
  induction l with
  | nil => simp [bufRemove]
  | cons x xs ih =>
    rw [bufRemove]
    split
    · rename_i hx
      constructor
      · intro h; cases h
      · intro h
        exact absurd hx (h x (List.mem_cons_self x xs))
    · rename_i hx
      cases hm : bufRemove id xs with
      | none =>
        constructor
        · intro _
          intro s hs
          rcases List.mem_cons.mp hs with rfl | hs2
          · exact hx
          · exact (ih.mp hm) s hs2
        · intro _; rfl
      | some pr =>
        constructor
        · intro h; cases h
        · intro h
          have hnone : bufRemove id xs = none :=
            ih.mpr (fun s hs => h s (List.mem_cons_of_mem x hs))
          rw [hnone] at hm
          cases hm

theorem bufRemove_some_spec (id : Nat) :
    ∀ (l : List SegmentPrimes) (s : SegmentPrimes) (rest : List SegmentPrimes),
      bufRemove id l = some (s, rest) →
        s.segment_id = id ∧ s ∈ l ∧ l.Perm (s :: rest) ∧ rest.Sublist l := by
  intro l
  induction l with
  | nil => intro s rest h; simp [bufRemove] at h
  | cons x xs ih =>
    intro s rest h
    rw [bufRemove] at h
    split at h
    · rename_i hx
      cases h
      exact ⟨hx, List.mem_cons_self _ _, List.Perm.refl _, List.sublist_cons_self x xs⟩
    · rename_i hx
      cases hm : bufRemove id xs with
      | none => rw [hm] at h; cases h
      | some pr =>
        rw [hm] at h
        cases h
        obtain ⟨h1, h2, h3, h4⟩ := ih pr.1 pr.2 (by rw [hm])
        refine ⟨h1, List.mem_cons_of_mem x h2, ?_, h4.cons₂ x⟩
        exact (h3.cons x).trans (List.Perm.swap pr.1 x pr.2)

theorem bufInsert_mem (s : SegmentPrimes) :
    ∀ (l : List SegmentPrimes) (y : SegmentPrimes), y ∈ bufInsert s l → y = s ∨ y ∈ l := by
  intro l
  induction l with
  | nil =>
    intro y hy
    rcases List.mem_singleton.mp hy with rfl
    exact Or.inl rfl
  | cons x xs ih =>
    intro y hy
    rw [bufInsert] at hy
    split at hy
    · rcases List.mem_cons.mp hy with rfl | hy'
      · exact Or.inl rfl
      · exact Or.inr hy'
    · split at hy
      · rcases List.mem_cons.mp hy with rfl | hy'
        · exact Or.inl rfl
        · exact Or.inr (List.mem_cons_of_mem x hy')
      · rcases List.mem_cons.mp hy with rfl | hy'
        · exact Or.inr (List.mem_cons_self _ _)
        · rcases ih y hy' with h | h
          · exact Or.inl h
          · exact Or.inr (List.mem_cons_of_mem x h)

theorem bufInsert_sorted (s : SegmentPrimes) :
    ∀ (l : List SegmentPrimes),
      l.Pairwise (fun a b => a.segment_id < b.segment_id) →
      (bufInsert s l).Pairwise (fun a b => a.segment_id < b.segment_id) := by
  intro l
  induction l with
  | nil => intro _; simp [bufInsert]
  | cons x xs ih =>
    intro hp
    rw [List.pairwise_cons] at hp
    rw [bufInsert]
    split
    · rename_i hlt
      rw [List.pairwise_cons]
      refine ⟨?_, List.pairwise_cons.mpr hp⟩
      intro y hy
      rcases List.mem_cons.mp hy with rfl | hy'
      · exact hlt
      · exact Nat.lt_trans hlt (hp.1 y hy')
    · split
      · rename_i hlt heq
        rw [List.pairwise_cons]
        refine ⟨?_, hp.2⟩
        intro y hy
        rw [heq]
        exact hp.1 y hy
      · rename_i hlt heq
        rw [List.pairwise_cons]
        refine ⟨?_, ih hp.2⟩
        intro y hy
        rcases bufInsert_mem s xs y hy with rfl | h
        · omega
        · exact hp.1 y h

theorem bufInsert_perm (s : SegmentPrimes) :
    ∀ (l : List SegmentPrimes),
      (∀ x ∈ l, x.segment_id ≠ s.segment_id) → (bufInsert s l).Perm (s :: l) := by
  intro l
  induction l with
  | nil => intro _; simp [bufInsert]
  | cons x xs ih =>
    intro hne
    rw [bufInsert]
    split
    · exact List.Perm.refl _
    · split
      · rename_i hlt heq
        exact absurd heq.symm (hne x (List.mem_cons_self x xs))
      · rename_i hlt heq
        exact ((ih (fun y hy => hne y (List.mem_cons_of_mem x hy))).cons x).trans
          (List.Perm.swap s x xs)

/-- The in-order drain loop:
`while let Some(seg) = segment_buffer.remove(&next_expected_id) { ... }`. -/
def drain (K : Nat) (st : CState) : CState :=
  match h : bufRemove st.next st.buf with
  | none => st
  | some (s, rest) => drain K ⟨rest, st.next + K, st.out ++ [s]⟩
termination_by st.buf.length
decreasing_by
  have := bufRemove_length st.next st.buf s rest h
  simp
  omega

/-- One consumer loop iteration: insert the arrived segment, then drain. -/
def consumerStep (K : Nat) (st : CState) (s : SegmentPrimes) : CState :=
  drain K { buf := bufInsert s st.buf, next := st.next, out := st.out }

/-- The consumer loop over all arrivals, starting from
`next_expected_id = consumer_id` and an empty buffer. -/
def consumerRun (arrivals : List SegmentPrimes) (c K : Nat) : CState :=
  arrivals.foldl (consumerStep K) { buf := [], next := c, out := [] }

/-- The full emission sequence of a consumer: the in-order writes followed
by the final `while let Some(...) = pop_first()` residual drain (the buffer
is in ascending key order, so that drain emits it front to back). -/
def consumerRunSegs (arrivals : List SegmentPrimes) (c K : Nat) : List SegmentPrimes :=
  (consumerRun arrivals c K).out ++ (consumerRun arrivals c K).buf

/-- The values a consumer writes, in file order. -/
def consumerFileValues (arrivals : List SegmentPrimes) (c K : Nat) : List Nat :=
  ((consumerRunSegs arrivals c K).map (fun seg => seg.primes)).flatten

/-- `count`, the value the consumer thread returns. -/
def consumerSavedCount (arrivals : List SegmentPrimes) (c K : Nat) : Nat :=
  (consumerFileValues arrivals c K).length

/-- `(prime as u64).to_le_bytes()`: the 8 little-endian bytes. -/
def leBytes8 (n : Nat) : List Nat :=
  (List.range 8).map (fun k => n / 256 ^ k % 256)

/-- The bytes of a consumer's binary output file. -/
def consumerFileBytes (arrivals : List SegmentPrimes) (c K : Nat) : List Nat :=
  ((consumerFileValues arrivals c K).map leBytes8).flatten

/-- Invariant of the consumer loop, relating the state to the multiset `P`
of already processed arrivals: the buffer holds (sorted) exactly the
processed segments with id at or past `next_expected_id`, the output holds
exactly the ones before it, and the output ids are the full stride
progression below `next_expected_id`. -/
def GoodState (c K : Nat) (P : List SegmentPrimes) (st : CState) : Prop :=
  st.buf.Pairwise (fun a b => a.segment_id < b.segment_id) ∧
  st.buf.Perm (P.filter (fun s => decide (st.next ≤ s.segment_id))) ∧
  (∃ t, st.next = c + t * K ∧
    st.out.map (fun s => s.segment_id) = (List.range t).map (fun j => c + j * K)) ∧
  st.out.Perm (P.filter (fun s => decide (s.segment_id < st.next)))

theorem prog_gap {c K j t : Nat} (hK : 0 < K) (h : c + t * K < c + j * K) :
    c + (t + 1) * K ≤ c + j * K := by
  have ht : t * K < j * K := by omega
  have : t < j := Nat.lt_of_mul_lt_mul_right ht
  have : (t + 1) * K ≤ j * K := Nat.mul_le_mul_right K (by omega)
  omega

theorem prog_le {c K j t : Nat} (h : j ≤ t) : c + j * K ≤ c + t * K := by
  have : j * K ≤ t * K := Nat.mul_le_mul_right K h
  omega

/-- Splitting the not-yet-written processed segments at the unique segment
with id `c + t*K`. -/
theorem filter_split_ge (c K t : Nat) (hK : 0 < K) (P : List SegmentPrimes)
    (hprog : ∀ x ∈ P, ∃ j, x.segment_id = c + j * K)
    (hnodup : (P.map (fun s => s.segment_id)).Nodup)
    (s : SegmentPrimes) (hs : s ∈ P) (hsid : s.segment_id = c + t * K) :
    (P.filter (fun x => decide (c + t * K ≤ x.segment_id))).Perm
      (s :: P.filter (fun x => decide (c + (t + 1) * K ≤ x.segment_id))) := by
  have hPnd : P.Nodup := hnodup.of_map
  have hms : (t + 1) * K = t * K + K := Nat.succ_mul t K
  rw [List.perm_ext_iff_of_nodup (hPnd.filter _)
    (List.nodup_cons.mpr ⟨by
      intro hmem
      rw [List.mem_filter] at hmem
      have h2 := hmem.2
      simp only [decide_eq_true_eq] at h2
      omega, hPnd.filter _⟩)]
  intro x
  rw [List.mem_filter, List.mem_cons, List.mem_filter]
  simp only [decide_eq_true_eq]
  constructor
  · rintro ⟨hxP, hxge⟩
    rcases hprog x hxP with ⟨j, hj⟩
    rcases Nat.eq_or_lt_of_le hxge with heq | hlt
    · left
      exact List.inj_on_of_nodup_map hnodup hxP hs (by omega)
    · right
      refine ⟨hxP, ?_⟩
      have hgap := prog_gap hK (show c + t * K < c + j * K by omega)
      omega
  · rintro (rfl | ⟨hxP, hxge⟩)
    · exact ⟨hs, by omega⟩
    · exact ⟨hxP, by omega⟩

/-- Splitting the written processed segments: extending the bound by one
stride adds exactly the segment with id `c + t*K`. -/
theorem filter_split_lt (c K t : Nat) (hK : 0 < K) (P : List SegmentPrimes)
    (hprog : ∀ x ∈ P, ∃ j, x.segment_id = c + j * K)
    (hnodup : (P.map (fun s => s.segment_id)).Nodup)
    (s : SegmentPrimes) (hs : s ∈ P) (hsid : s.segment_id = c + t * K) :
    (P.filter (fun x => decide (x.segment_id < c + (t + 1) * K))).Perm
      (s :: P.filter (fun x => decide (x.segment_id < c + t * K))) := by
  have hPnd : P.Nodup := hnodup.of_map
  have hms : (t + 1) * K = t * K + K := Nat.succ_mul t K
  rw [List.perm_ext_iff_of_nodup (hPnd.filter _)
    (List.nodup_cons.mpr ⟨by
      intro hmem
      rw [List.mem_filter] at hmem
      have h2 := hmem.2
      simp only [decide_eq_true_eq] at h2
      omega, hPnd.filter _⟩)]
  intro x
  rw [List.mem_filter, List.mem_cons, List.mem_filter]
  simp only [decide_eq_true_eq]
  constructor
  · rintro ⟨hxP, hxlt⟩
    rcases hprog x hxP with ⟨j, hj⟩
    rcases Nat.lt_or_ge x.segment_id (c + t * K) with hlt | hge
    · right
      exact ⟨hxP, hlt⟩
    · left
      have hje : x.segment_id = c + t * K := by
        rcases Nat.eq_or_lt_of_le hge with heq | hlt2
        · omega
        · exfalso
          have hgap := prog_gap hK (show c + t * K < c + j * K by omega)
          omega
      exact List.inj_on_of_nodup_map hnodup hxP hs (by omega)
  · rintro (rfl | ⟨hxP, hxlt⟩)
    · exact ⟨hs, by omega⟩
    · exact ⟨hxP, by omega⟩

/-- Draining preserves the invariant and leaves a state whose
`next_expected_id` has not yet arrived (auxiliary induction on a bound for
the buffer length). -/
theorem drain_good_aux (c K : Nat) (hK : 0 < K) (P : List SegmentPrimes)
    (hprog : ∀ s ∈ P, ∃ j, s.segment_id = c + j * K)
    (hnodup : (P.map (fun s => s.segment_id)).Nodup) :
    ∀ (n : Nat) (st : CState), st.buf.length ≤ n → GoodState c K P st →
      GoodState c K P (drain K st) ∧
        (∀ s ∈ P, s.segment_id ≠ (drain K st).next) := by
  intro n
  induction n with
  | zero =>
    intro st hlen hgood
    have hbuf : st.buf = [] := List.eq_nil_of_length_eq_zero (by omega)
    obtain ⟨hsort, hbufP, ⟨t, hnext, houtids⟩, houtP⟩ := hgood
    unfold drain
    split
    · rename_i heq
      refine ⟨⟨hsort, hbufP, ⟨t, hnext, houtids⟩, houtP⟩, ?_⟩
      intro s hs hside
      have hsf : s ∈ P.filter (fun x => decide (st.next ≤ x.segment_id)) := by
        rw [List.mem_filter]
        exact ⟨hs, by simp [hside]⟩
      have : s ∈ st.buf := hbufP.mem_iff.mpr hsf
      exact (bufRemove_none_iff st.next st.buf).mp heq s this hside
    · rename_i s rest heq
      rw [hbuf] at heq
      simp [bufRemove] at heq
  | succ n ih =>
    intro st hlen hgood
    obtain ⟨hsort, hbufP, ⟨t, hnext, houtids⟩, houtP⟩ := hgood
    unfold drain
    split
    · rename_i heq
      refine ⟨⟨hsort, hbufP, ⟨t, hnext, houtids⟩, houtP⟩, ?_⟩
      intro s hs hside
      have hsf : s ∈ P.filter (fun x => decide (st.next ≤ x.segment_id)) := by
        rw [List.mem_filter]
        exact ⟨hs, by simp [hside]⟩
      have : s ∈ st.buf := hbufP.mem_iff.mpr hsf
      exact (bufRemove_none_iff st.next st.buf).mp heq s this hside
    · rename_i s rest heq
      obtain ⟨hsid, hsbuf, hperm_buf, hsub⟩ := bufRemove_some_spec st.next st.buf s rest heq
      have hsP : s ∈ P := by
        have := hbufP.mem_iff.mp hsbuf
        exact (List.mem_filter.mp this).1
      have hsid2 : s.segment_id = c + t * K := by rw [hsid, hnext]
      have hms : (t + 1) * K = t * K + K := Nat.succ_mul t K
      have hgood2 : GoodState c K P ⟨rest, st.next + K, st.out ++ [s]⟩ := by
        refine ⟨hsort.sublist hsub, ?_, ⟨t + 1, by simp only []; omega, ?_⟩, ?_⟩
        · have h1 : (s :: rest).Perm
              (P.filter (fun x => decide (st.next ≤ x.segment_id))) :=
            hperm_buf.symm.trans hbufP
          have h2 := filter_split_ge c K t hK P hprog hnodup s hsP hsid2
          rw [hnext] at h1
          have h3 : (s :: rest).Perm
              (s :: P.filter (fun x => decide (c + (t + 1) * K ≤ x.segment_id))) :=
            h1.trans h2
          have h4 := h3.cons_inv
          show rest.Perm (P.filter (fun x => decide (st.next + K ≤ x.segment_id)))
          have hbound : st.next + K = c + (t + 1) * K := by omega
          rw [hbound]
          exact h4
        · show (st.out ++ [s]).map (fun x => x.segment_id) = _
          rw [List.map_append, houtids, List.range_succ, List.map_append]
          simp [hsid2]
        · have h2 := filter_split_lt c K t hK P hprog hnodup s hsP hsid2
          show (st.out ++ [s]).Perm
            (P.filter (fun x => decide (x.segment_id < st.next + K)))
          have hbound : st.next + K = c + (t + 1) * K := by omega
          rw [hbound]
          refine List.Perm.trans ?_ h2.symm
          have h5 : (st.out ++ [s]).Perm (s :: st.out) := by
            simpa using @List.perm_append_comm _ st.out [s]
          refine h5.trans ?_
          apply List.Perm.cons
          rw [hnext] at houtP
          exact houtP
      have hrest : rest.length ≤ n := by
        have := bufRemove_length st.next st.buf s rest heq
        omega
      exact ih ⟨rest, st.next + K, st.out ++ [s]⟩ hrest hgood2

/-- Draining preserves the invariant and leaves a state whose
`next_expected_id` has not yet arrived. -/
theorem drain_good (c K : Nat) (hK : 0 < K) (P : List SegmentPrimes)
    (hprog : ∀ s ∈ P, ∃ j, s.segment_id = c + j * K)
    (hnodup : (P.map (fun s => s.segment_id)).Nodup)
    (st : CState) (hgood : GoodState c K P st) :
    GoodState c K P (drain K st) ∧
      (∀ s ∈ P, s.segment_id ≠ (drain K st).next) :=
  drain_good_aux c K hK P hprog hnodup st.buf.length st (le_refl _) hgood

/-- One loop iteration (insert + drain) preserves the invariant. -/
theorem consumerStep_good (c K : Nat) (hK : 0 < K) (P : List SegmentPrimes)
    (a : SegmentPrimes)
    (hprog : ∀ s ∈ P ++ [a], ∃ j, s.segment_id = c + j * K)
    (hnodup : (((P ++ [a]).map (fun s => s.segment_id))).Nodup)
    (st : CState) (hgood : GoodState c K P st)
    (hD : ∀ s ∈ P, s.segment_id ≠ st.next) :
    GoodState c K (P ++ [a]) (consumerStep K st a) ∧
      (∀ s ∈ P ++ [a], s.segment_id ≠ (consumerStep K st a).next) := by
  obtain ⟨hsort, hbufP, ⟨t, hnext, houtids⟩, houtP⟩ := hgood
  have hmapapp : (P ++ [a]).map (fun s => s.segment_id) =
      P.map (fun s => s.segment_id) ++ [a.segment_id] := by
    rw [List.map_append]
    rfl
  have hnodupP : (P.map (fun s => s.segment_id)).Nodup := by
    rw [hmapapp] at hnodup
    exact hnodup.of_append_left
  have haP : ∀ x ∈ P, x.segment_id ≠ a.segment_id := by
    intro x hx
    rw [hmapapp, List.nodup_append] at hnodup
    intro hcontra
    exact hnodup.2.2 (hcontra ▸ List.mem_map_of_mem _ hx) (List.mem_singleton_self _)
  have hprogP : ∀ s ∈ P, ∃ j, s.segment_id = c + j * K :=
    fun s hs => hprog s (List.mem_append_left _ hs)
  have hprogA : ∃ j, a.segment_id = c + j * K :=
    hprog a (List.mem_append_right _ (List.mem_singleton_self _))
  have hanext : st.next ≤ a.segment_id := by
    rcases hprogA with ⟨j, hj⟩
    by_contra hlt
    push_neg at hlt
    have hjt : j < t := by
      by_contra hge
      push_neg at hge
      have := @prog_le c K t j hge
      omega
    have hmem : c + j * K ∈ (List.range t).map (fun j => c + j * K) :=
      List.mem_map_of_mem _ (List.mem_range.mpr hjt)
    rw [← houtids] at hmem
    rcases List.mem_map.mp hmem with ⟨x, hxout, hxid⟩
    have hxP : x ∈ P := by
      have := houtP.subset hxout
      exact (List.mem_filter.mp this).1
    exact haP x hxP (by omega)
  have hbufsub : ∀ x ∈ st.buf, x ∈ P := by
    intro x hx
    have := hbufP.subset hx
    exact (List.mem_filter.mp this).1
  have hbufa : ∀ x ∈ st.buf, x.segment_id ≠ a.segment_id :=
    fun x hx => haP x (hbufsub x hx)
  have hpermins : (bufInsert a st.buf).Perm (a :: st.buf) := bufInsert_perm a st.buf hbufa
  have hgood1 : GoodState c K (P ++ [a])
      { buf := bufInsert a st.buf, next := st.next, out := st.out } := by
    refine ⟨bufInsert_sorted a st.buf hsort, ?_, ⟨t, hnext, houtids⟩, ?_⟩
    · show (bufInsert a st.buf).Perm
        ((P ++ [a]).filter (fun x => decide (st.next ≤ x.segment_id)))
      rw [List.filter_append]
      have hfa : [a].filter (fun x => decide (st.next ≤ x.segment_id)) = [a] := by
        simp [hanext]
      rw [hfa]
      refine hpermins.trans ?_
      refine List.Perm.trans ?_ List.perm_append_comm
      exact (hbufP.cons a).symm.symm
    · show st.out.Perm ((P ++ [a]).filter (fun x => decide (x.segment_id < st.next)))
      rw [List.filter_append]
      have hfa : [a].filter (fun x => decide (x.segment_id < st.next)) = [] := by
        simp
        omega
      rw [hfa, List.append_nil]
      exact houtP
  have hdrain := drain_good c K hK (P ++ [a]) hprog hnodup
    { buf := bufInsert a st.buf, next := st.next, out := st.out } hgood1
  exact hdrain

/-- The whole consumer loop preserves the invariant. -/
theorem consumerRun_good (c K : Nat) (hK : 0 < K) :
    ∀ (arrivals P : List SegmentPrimes) (st : CState),
      (∀ s ∈ P ++ arrivals, ∃ j, s.segment_id = c + j * K) →
      (((P ++ arrivals).map (fun s => s.segment_id)).Nodup) →
      GoodState c K P st →
      (∀ s ∈ P, s.segment_id ≠ st.next) →
      GoodState c K (P ++ arrivals) (arrivals.foldl (consumerStep K) st) ∧
        (∀ s ∈ P ++ arrivals,
          s.segment_id ≠ (arrivals.foldl (consumerStep K) st).next) := by
  intro arrivals
  induction arrivals with
  | nil =>
    intro P st h1 h2 h3 h4
    rw [List.append_nil] at h1 h2 ⊢
    exact ⟨h3, h4⟩
  | cons a rest ih =>
    intro P st h1 h2 h3 h4
    have hsub : (P ++ [a]).Sublist (P ++ a :: rest) :=
      List.Sublist.append_left (by simp) P
    have h1' : ∀ s ∈ P ++ [a], ∃ j, s.segment_id = c + j * K :=
      fun s hs => h1 s (hsub.subset hs)
    have h2' : (((P ++ [a]).map (fun s => s.segment_id))).Nodup :=
      (hsub.map _).nodup h2
    have hstep := consumerStep_good c K hK P a h1' h2' st h3 h4
    have hassoc : (P ++ [a]) ++ rest = P ++ a :: rest := by
      rw [List.append_assoc]
      rfl
    have hrest := ih (P ++ [a]) (consumerStep K st a)
      (by rw [hassoc]; exact h1) (by rw [hassoc]; exact h2) hstep.1 hstep.2
    rw [hassoc] at hrest
    exact hrest

/-- Two permuted lists whose id sequences coincide (with distinct ids) are
equal. -/
theorem eq_of_perm_of_map_segid_eq :
    ∀ (l1 l2 : List SegmentPrimes), l1.Perm l2 →
      l1.map (fun s => s.segment_id) = l2.map (fun s => s.segment_id) →
      ((l1.map (fun s => s.segment_id)).Nodup) → l1 = l2 := by
  intro l1
  induction l1 with
  | nil =>
    intro l2 hp _ _
    exact (hp.symm.eq_nil).symm ▸ rfl
  | cons a t1 ih =>
    intro l2 hp hm hnd
    cases l2 with
    | nil => simp at hm
    | cons b t2 =>
      simp only [List.map_cons, List.cons.injEq] at hm
      obtain ⟨hab, hmt⟩ := hm
      have hae : a = b := by
        have haIn : a ∈ b :: t2 := hp.mem_iff.mp (List.mem_cons_self a t1)
        rcases List.mem_cons.mp haIn with h | h
        · exact h
        · exfalso
          have hmem : a.segment_id ∈ t2.map (fun s => s.segment_id) :=
            List.mem_map_of_mem _ h
          rw [← hmt] at hmem
          rw [List.map_cons] at hnd
          exact (List.nodup_cons.mp hnd).1 hmem
      subst hae
      have hperm2 : t1.Perm t2 := hp.cons_inv
      have ht : t1 = t2 := ih t2 hperm2 hmt (by
        rw [List.map_cons] at hnd
        exact (List.nodup_cons.mp hnd).2)
      rw [ht]

/-- Main reorder theorem: whatever the arrival order, a consumer whose
assigned id set is downward closed along its stride emits exactly the
canonical ascending segment list, with an empty residual buffer. -/
theorem consumerRunSegs_eq (c K : Nat) (hK : 0 < K) (L arrivals : List SegmentPrimes)
    (hsorted : L.Pairwise (fun a b => a.segment_id < b.segment_id))
    (hprog : ∀ s ∈ L, ∃ j, s.segment_id = c + j * K)
    (hclosed : ∀ j1 j2 : Nat, j1 ≤ j2 →
      (∃ s ∈ L, s.segment_id = c + j2 * K) → ∃ s ∈ L, s.segment_id = c + j1 * K)
    (hperm : arrivals.Perm L) :
    consumerRunSegs arrivals c K = L := by
  have hLids : (L.map (fun s => s.segment_id)).Pairwise (· < ·) :=
    (List.pairwise_map).mpr hsorted
  have hLnodup : (L.map (fun s => s.segment_id)).Nodup :=
    hLids.imp Nat.ne_of_lt
  have hAnodup : (arrivals.map (fun s => s.segment_id)).Nodup :=
    ((hperm.map _).nodup_iff).mpr hLnodup
  have hprogA : ∀ s ∈ arrivals, ∃ j, s.segment_id = c + j * K :=
    fun s hs => hprog s (hperm.subset hs)
  have hinit : GoodState c K [] { buf := [], next := c, out := [] } := by
    refine ⟨List.Pairwise.nil, by simp, ⟨0, by simp, by simp⟩, by simp⟩
  have hrun := consumerRun_good c K hK arrivals [] { buf := [], next := c, out := [] }
    (by simpa using hprogA) (by simpa using hAnodup) hinit (by simp)
  rw [List.nil_append] at hrun
  obtain ⟨⟨hsortF, hbufF, ⟨t, hnextF, houtidsF⟩, houtF⟩, hDF⟩ := hrun
  set final := arrivals.foldl (consumerStep K) { buf := [], next := c, out := [] }
    with hfinal
  have halllt : ∀ s ∈ arrivals, s.segment_id < final.next := by
    intro s hs
    rcases hprogA s hs with ⟨j, hj⟩
    rcases Nat.lt_or_ge s.segment_id final.next with h | h
    · exact h
    · exfalso
      have hjt : t ≤ j := by
        by_contra hlt
        push_neg at hlt
        have h1 : j * K < t * K := (Nat.mul_lt_mul_right hK).mpr hlt
        omega
      have hex : ∃ s2 ∈ L, s2.segment_id = c + t * K :=
        hclosed t j hjt ⟨s, hperm.subset hs, hj⟩
      rcases hex with ⟨s2, hs2L, hs2id⟩
      have hs2A : s2 ∈ arrivals := hperm.mem_iff.mpr hs2L
      exact hDF s2 hs2A (by rw [hs2id, hnextF])
  have hbufnil : final.buf = [] := by
    have hfe : arrivals.filter (fun x => decide (final.next ≤ x.segment_id)) = [] := by
      rw [List.filter_eq_nil_iff]
      intro x hx
      simp only [decide_eq_true_eq]
      have := halllt x hx
      omega
    rw [hfe] at hbufF
    exact hbufF.eq_nil
  have houtperm : final.out.Perm L := by
    have hfe : arrivals.filter (fun x => decide (x.segment_id < final.next)) = arrivals := by
      rw [List.filter_eq_self]
      intro x hx
      simp [halllt x hx]
    rw [hfe] at houtF
    exact houtF.trans hperm
  have houtids_pairwise : (final.out.map (fun s => s.segment_id)).Pairwise (· < ·) := by
    rw [houtidsF, List.pairwise_map]
    refine (List.pairwise_lt_range t).imp ?_
    intro a b hab
    have := (Nat.mul_lt_mul_right hK).mpr hab
    omega
  have hmapseq : final.out.map (fun s => s.segment_id) = L.map (fun s => s.segment_id) :=
    List.eq_of_perm_of_sorted (houtperm.map _)
      (houtids_pairwise.imp le_of_lt) (hLids.imp le_of_lt)
  have houteq : final.out = L :=
    eq_of_perm_of_map_segid_eq final.out L houtperm hmapseq (by rw [hmapseq]; exact hLnodup)
  show (consumerRun arrivals c K).out ++ (consumerRun arrivals c K).buf = L
  have hcr : consumerRun arrivals c K = final := rfl
  rw [hcr, houteq, hbufnil, List.append_nil]

theorem mem_assignedSegs (limit s K c : Nat) (x : SegmentPrimes) :
    x ∈ assignedSegs limit s K c ↔
      ∃ idx, idx < v9TotalSegments limit s ∧ routedConsumer K (idx + 1) = c ∧
        x = segmentPrimesAt limit s idx := by
  unfold assignedSegs
  rw [List.mem_filterMap]
  constructor
  · rintro ⟨idx, hidx, hsome⟩
    rw [List.mem_range] at hidx
    split at hsome
    · rename_i hroute
      exact ⟨idx, hidx, hroute, (Option.some.inj hsome).symm⟩
    · simp at hsome
  · rintro ⟨idx, h1, h2, rfl⟩
    exact ⟨idx, List.mem_range.mpr h1, by rw [if_pos h2]⟩

theorem segmentPrimesAt_id (limit s idx : Nat) :
    (segmentPrimesAt limit s idx).segment_id = idx + 1 := by
  unfold segmentPrimesAt
  simp

theorem segmentPrimesAt_primes (limit s idx : Nat) :
    (segmentPrimesAt limit s idx).primes = segmentValues limit s idx := by
  unfold segmentPrimesAt
  simp

theorem assignedSegs_sorted (limit s K c : Nat) :
    (assignedSegs limit s K c).Pairwise (fun a b => a.segment_id < b.segment_id) := by
  unfold assignedSegs
  rw [List.pairwise_filterMap]
  refine (List.pairwise_lt_range _).imp ?_
  intro a b hab x hx y hy
  split at hx
  · split at hy
    · simp only [Option.mem_def, Option.some.injEq] at hx hy
      rw [← hx, ← hy]
      show a + 1 < b + 1
      omega
    · simp at hy
  · simp at hx

theorem routedConsumer_range (K id : Nat) (hK : 0 < K) :
    1 ≤ routedConsumer K id ∧ routedConsumer K id ≤ K := by
  unfold routedConsumer
  have := Nat.mod_lt (id - 1) hK
  omega

theorem assignedSegs_prog (limit s K c : Nat) (hK : 0 < K) (hc : 1 ≤ c) :
    ∀ x ∈ assignedSegs limit s K c, ∃ j, x.segment_id = c + j * K := by
  intro x hx
  rcases (mem_assignedSegs limit s K c x).mp hx with ⟨idx, hidx, hroute, rfl⟩
  unfold routedConsumer at hroute
  have hmod : idx % K = c - 1 := by
    simp only [Nat.add_sub_cancel] at hroute
    omega
  refine ⟨idx / K, ?_⟩
  rw [segmentPrimesAt_id]
  have hdm := Nat.div_add_mod idx K
  have hcomm : K * (idx / K) = (idx / K) * K := Nat.mul_comm _ _
  omega

theorem assignedSegs_mod (limit s K c : Nat) (hK : 0 < K) (hc : 1 ≤ c) (hcK : c ≤ K) :
    ∀ x ∈ assignedSegs limit s K c, x.segment_id % K = c % K := by
  intro x hx
  rcases assignedSegs_prog limit s K c hK hc x hx with ⟨j, hj⟩
  rw [hj]
  rw [Nat.add_mul_mod_self_right]

theorem assignedSegs_closed (limit s K c : Nat) (hK : 0 < K) (hc : 1 ≤ c) (hcK : c ≤ K) :
    ∀ j1 j2 : Nat, j1 ≤ j2 →
      (∃ x ∈ assignedSegs limit s K c, x.segment_id = c + j2 * K) →
      ∃ x ∈ assignedSegs limit s K c, x.segment_id = c + j1 * K := by
  intro j1 j2 hj12 ⟨x, hx, hxid⟩
  rcases (mem_assignedSegs limit s K c x).mp hx with ⟨idx2, hidx2, hroute2, rfl⟩
  rw [segmentPrimesAt_id] at hxid
  have hidx2_val : idx2 = c - 1 + j2 * K := by omega
  set idx1 := c - 1 + j1 * K with hidx1_def
  have hmul : j1 * K ≤ j2 * K := Nat.mul_le_mul_right K hj12
  have hidx1_lt : idx1 < v9TotalSegments limit s := by omega
  have hroute1 : routedConsumer K (idx1 + 1) = c := by
    unfold routedConsumer
    simp only [Nat.add_sub_cancel]
    have hmod : idx1 % K = c - 1 := by
      rw [hidx1_def, Nat.add_mul_mod_self_right]
      exact Nat.mod_eq_of_lt (by omega)
    omega
  refine ⟨segmentPrimesAt limit s idx1, ?_, ?_⟩
  · exact (mem_assignedSegs limit s K c _).mpr ⟨idx1, hidx1_lt, hroute1, rfl⟩
  · rw [segmentPrimesAt_id]
    omega

/-- The canonical run: arrivals in assigned order reproduce the assigned
list (special case of the reorder theorem). -/
theorem consumerRunSegs_of_perm (limit s K c : Nat) (hK : 0 < K) (hc : 1 ≤ c)
    (hcK : c ≤ K) (arrivals : List SegmentPrimes)
    (hperm : arrivals.Perm (assignedSegs limit s K c)) :
    consumerRunSegs arrivals c K = assignedSegs limit s K c :=
  consumerRunSegs_eq c K hK (assignedSegs limit s K c) arrivals
    (assignedSegs_sorted limit s K c)
    (assignedSegs_prog limit s K c hK hc)
    (assignedSegs_closed limit s K c hK hc hcK)
    hperm

/-! ## The v9 union of output files, and the effective-limit arithmetic. -/

/-- Membership in the union of all the files the variation-9 run writes for
requested limit `N` and `K` consumers: the privileged small-primes file, or
some consumer's output file (fed in canonical arrival order). -/
def v9UnionMember (N K n : Nat) : Prop :=
  n ∈ v9SmallPrimes (effectiveLimit N) (Nat.sqrt N) K ∨
  ∃ c, 1 ≤ c ∧ c ≤ K ∧
    n ∈ consumerFileValues (assignedSegs (effectiveLimit N) (Nat.sqrt N) K c) c K

theorem SEG_pos : 0 < SEGMENT_SIZE_NUMBERS := by decide

theorem segStartLow_le (N : Nat) (hN : 4 ≤ N) : segStartLow (Nat.sqrt N) ≤ N := by
  have hs2 : 2 ≤ Nat.sqrt N := Nat.le_sqrt.mpr (by omega)
  have hsq : Nat.sqrt N * Nat.sqrt N ≤ N := Nat.sqrt_le N
  have h2s : Nat.sqrt N + 2 ≤ Nat.sqrt N * Nat.sqrt N := by
    have := Nat.mul_le_mul_right (Nat.sqrt N) hs2
    omega
  have := (segStartLow_bounds (Nat.sqrt N)).2
  omega

/-- The structure of the adjusted limit: for accepted `N` the effective
limit covers `num_segments` whole segments past `low`, is at least `N`, and
`find_primes_v9_multi_consumers` recomputes the same segment count. -/
theorem effectiveLimit_structure (N : Nat) (hN : 4 ≤ N) :
    segStartLow (Nat.sqrt N) ≤ N ∧
    N ≤ effectiveLimit N ∧
    1 ≤ v9TotalSegments (effectiveLimit N) (Nat.sqrt N) ∧
    effectiveLimit N = segStartLow (Nat.sqrt N) +
      v9TotalSegments (effectiveLimit N) (Nat.sqrt N) * SEGMENT_SIZE_NUMBERS - 1 := by
  have hlowN := segStartLow_le N hN
  have hSEG := SEG_pos
  have hdm := Nat.div_add_mod
    (N - segStartLow (Nat.sqrt N) + 1 + SEGMENT_SIZE_NUMBERS - 1) SEGMENT_SIZE_NUMBERS
  have hrem : (N - segStartLow (Nat.sqrt N) + 1 + SEGMENT_SIZE_NUMBERS - 1) %
      SEGMENT_SIZE_NUMBERS < SEGMENT_SIZE_NUMBERS := Nat.mod_lt _ hSEG
  have hcomm : SEGMENT_SIZE_NUMBERS *
      ((N - segStartLow (Nat.sqrt N) + 1 + SEGMENT_SIZE_NUMBERS - 1) / SEGMENT_SIZE_NUMBERS) =
      ((N - segStartLow (Nat.sqrt N) + 1 + SEGMENT_SIZE_NUMBERS - 1) / SEGMENT_SIZE_NUMBERS) *
        SEGMENT_SIZE_NUMBERS := Nat.mul_comm _ _
  have hq1 : 1 ≤ (N - segStartLow (Nat.sqrt N) + 1 + SEGMENT_SIZE_NUMBERS - 1) /
      SEGMENT_SIZE_NUMBERS := by
    rw [Nat.one_le_div_iff hSEG]
    omega
  have hqSEGmul : 1 * SEGMENT_SIZE_NUMBERS ≤
      ((N - segStartLow (Nat.sqrt N) + 1 + SEGMENT_SIZE_NUMBERS - 1) / SEGMENT_SIZE_NUMBERS) *
        SEGMENT_SIZE_NUMBERS := Nat.mul_le_mul_right _ hq1
  have heff : effectiveLimit N = segStartLow (Nat.sqrt N) +
      ((N - segStartLow (Nat.sqrt N) + 1 + SEGMENT_SIZE_NUMBERS - 1) / SEGMENT_SIZE_NUMBERS) *
        SEGMENT_SIZE_NUMBERS - 1 := by
    unfold effectiveLimit
    simp only []
    rw [if_pos hlowN]
  have heffN : N ≤ effectiveLimit N := by
    rw [heff]
    omega
  have hloweff : segStartLow (Nat.sqrt N) ≤ effectiveLimit N := by omega
  have htot : v9TotalSegments (effectiveLimit N) (Nat.sqrt N) =
      (N - segStartLow (Nat.sqrt N) + 1 + SEGMENT_SIZE_NUMBERS - 1) /
        SEGMENT_SIZE_NUMBERS := by
    unfold v9TotalSegments
    rw [if_pos hloweff]
    have hspan : effectiveLimit N - segStartLow (Nat.sqrt N) + 1 =
        ((N - segStartLow (Nat.sqrt N) + 1 + SEGMENT_SIZE_NUMBERS - 1) /
          SEGMENT_SIZE_NUMBERS) * SEGMENT_SIZE_NUMBERS := by
      rw [heff]
      omega
    rw [hspan]
    have h1 : ((N - segStartLow (Nat.sqrt N) + 1 + SEGMENT_SIZE_NUMBERS - 1) /
          SEGMENT_SIZE_NUMBERS) * SEGMENT_SIZE_NUMBERS + SEGMENT_SIZE_NUMBERS - 1 =
        (SEGMENT_SIZE_NUMBERS - 1) +
          ((N - segStartLow (Nat.sqrt N) + 1 + SEGMENT_SIZE_NUMBERS - 1) /
            SEGMENT_SIZE_NUMBERS) * SEGMENT_SIZE_NUMBERS := by omega
    rw [h1, Nat.add_mul_div_right _ _ hSEG, Nat.div_eq_of_lt (by omega)]
    omega
  refine ⟨hlowN, heffN, by omega, by rw [htot, heff]⟩

/-- Inside the effective range every segment is full:
`seg_high = seg_low + SEGMENT_SIZE_NUMBERS - 1`. -/
theorem segHigh_full (N idx : Nat) (hN : 4 ≤ N)
    (hidx : idx < v9TotalSegments (effectiveLimit N) (Nat.sqrt N)) :
    segHigh (effectiveLimit N) (Nat.sqrt N) idx =
      segLow (Nat.sqrt N) idx + SEGMENT_SIZE_NUMBERS - 1 := by
  obtain ⟨h1, h2, h3, h4⟩ := effectiveLimit_structure N hN
  unfold segHigh segLow
  have hmul : (idx + 1) * SEGMENT_SIZE_NUMBERS ≤
      v9TotalSegments (effectiveLimit N) (Nat.sqrt N) * SEGMENT_SIZE_NUMBERS :=
    Nat.mul_le_mul_right _ (by omega)
  have hms : (idx + 1) * SEGMENT_SIZE_NUMBERS =
      idx * SEGMENT_SIZE_NUMBERS + SEGMENT_SIZE_NUMBERS := Nat.succ_mul _ _
  have hSEG := SEG_pos
  rw [Nat.min_def]
  split
  · rfl
  · rename_i hgt
    push_neg at hgt
    exfalso
    omega

theorem v9SmallPrimes_eq (N K : Nat) (hN : 4 ≤ N) (hK : 0 < K) :
    v9SmallPrimes (effectiveLimit N) (Nat.sqrt N) K = find_primes_v2 (Nat.sqrt N) := by
  obtain ⟨h1, h2, h3, h4⟩ := effectiveLimit_structure N hN
  unfold v9SmallPrimes
  rw [if_neg (by omega), if_neg (by omega), if_pos (by omega)]

theorem consumerFileValues_canonical (limit s K c : Nat) (hK : 0 < K) (hc : 1 ≤ c)
    (hcK : c ≤ K) :
    consumerFileValues (assignedSegs limit s K c) c K =
      ((assignedSegs limit s K c).map (fun seg => seg.primes)).flatten := by
  unfold consumerFileValues
  rw [consumerRunSegs_of_perm limit s K c hK hc hcK _ (List.Perm.refl _)]

/-- The union across consumer files reduces to membership in some segment. -/
theorem v9UnionMember_iff (N K n : Nat) (hN : 4 ≤ N) (hK : 0 < K) :
    v9UnionMember N K n ↔
      n ∈ find_primes_v2 (Nat.sqrt N) ∨
      ∃ idx, idx < v9TotalSegments (effectiveLimit N) (Nat.sqrt N) ∧
        n ∈ segmentValues (effectiveLimit N) (Nat.sqrt N) idx := by
  unfold v9UnionMember
  rw [v9SmallPrimes_eq N K hN hK]
  constructor
  · rintro (h | ⟨c, hc, hcK, hmem⟩)
    · exact Or.inl h
    · right
      rw [consumerFileValues_canonical _ _ K c hK hc hcK] at hmem
      rw [List.mem_flatten] at hmem
      rcases hmem with ⟨vals, hvals, hn⟩
      rw [List.mem_map] at hvals
      rcases hvals with ⟨seg, hseg, rfl⟩
      rcases (mem_assignedSegs _ _ K c seg).mp hseg with ⟨idx, hidx, _, rfl⟩
      rw [segmentPrimesAt_primes] at hn
      exact ⟨idx, hidx, hn⟩
  · rintro (h | ⟨idx, hidx, hmem⟩)
    · exact Or.inl h
    · right
      obtain ⟨hr1, hr2⟩ := routedConsumer_range K (idx + 1) hK
      refine ⟨routedConsumer K (idx + 1), hr1, hr2, ?_⟩
      rw [consumerFileValues_canonical _ _ K _ hK hr1 hr2]
      rw [List.mem_flatten]
      refine ⟨(segmentPrimesAt (effectiveLimit N) (Nat.sqrt N) idx).primes, ?_, ?_⟩
      · exact List.mem_map_of_mem _
          ((mem_assignedSegs _ _ K _ _).mpr ⟨idx, hidx, rfl, rfl⟩)
      · rw [segmentPrimesAt_primes]
        exact hmem

/-- Completeness: every prime up to the effective limit appears in the
union of the output files (no hypothesis on segment alignment needed). -/
theorem v9_complete (N K p : Nat) (hN : 4 ≤ N) (hK : 0 < K)
    (hp : p.Prime) (hple : p ≤ effectiveLimit N) : v9UnionMember N K p := by
  rw [v9UnionMember_iff N K p hN hK]
  by_cases hps : p ≤ Nat.sqrt N
  · exact Or.inl ((mem_find_primes_v2 _ p).mpr ⟨hp, hps⟩)
  · right
    push_neg at hps
    obtain ⟨hlowN, heffN, htot1, heq⟩ := effectiveLimit_structure N hN
    have hs2 : 2 ≤ Nat.sqrt N := Nat.le_sqrt.mpr (by omega)
    have hpne2 : p ≠ 2 := by omega
    have hpodd : p % 2 = 1 := Nat.odd_iff.mp (hp.odd_of_ne_two hpne2)
    have hplow : segStartLow (Nat.sqrt N) ≤ p := by
      rw [segStartLow_eq]
      split <;> omega
    obtain ⟨idx, hidx⟩ :
        ∃ i, i = (p - segStartLow (Nat.sqrt N)) / SEGMENT_SIZE_NUMBERS := ⟨_, rfl⟩
    have hdm := Nat.div_add_mod (p - segStartLow (Nat.sqrt N)) SEGMENT_SIZE_NUMBERS
    rw [← hidx] at hdm
    have hrem_lt : (p - segStartLow (Nat.sqrt N)) % SEGMENT_SIZE_NUMBERS <
        SEGMENT_SIZE_NUMBERS := Nat.mod_lt _ SEG_pos
    have hcm : SEGMENT_SIZE_NUMBERS * idx = idx * SEGMENT_SIZE_NUMBERS := Nat.mul_comm _ _
    have hidxlt : idx < v9TotalSegments (effectiveLimit N) (Nat.sqrt N) := by
      by_contra hge
      push_neg at hge
      have hmul : v9TotalSegments (effectiveLimit N) (Nat.sqrt N) * SEGMENT_SIZE_NUMBERS ≤
          idx * SEGMENT_SIZE_NUMBERS := Nat.mul_le_mul_right _ hge
      omega
    refine ⟨idx, hidxlt, ?_⟩
    rw [mem_segmentValues]
    have hseglowodd := segLow_odd (Nat.sqrt N) idx
    have hsegloweq : segLow (Nat.sqrt N) idx =
        segStartLow (Nat.sqrt N) + idx * SEGMENT_SIZE_NUMBERS := rfl
    have hpr : p = segLow (Nat.sqrt N) idx +
        (p - segStartLow (Nat.sqrt N)) % SEGMENT_SIZE_NUMBERS := by
      rw [hsegloweq]
      omega
    have hremeven : (p - segStartLow (Nat.sqrt N)) % SEGMENT_SIZE_NUMBERS % 2 = 0 := by
      omega
    have hSSN2 : SEGMENT_SIZE_NUMBERS = 2 * SEGMENT_SIZE_BITS := by
      unfold SEGMENT_SIZE_NUMBERS
      ring
    refine ⟨(p - segStartLow (Nat.sqrt N)) % SEGMENT_SIZE_NUMBERS / 2, ?_, ?_, ?_, ?_⟩
    · omega
    · omega
    · unfold segHigh
      refine Nat.le_min.mpr ⟨by omega, hple⟩
    · intro q hq hqd
      rcases (mem_find_primes_v2_tail (Nat.sqrt N) q).mp hq with ⟨hqp, hqle, _⟩
      have := (Nat.prime_dvd_prime_iff_eq hqp hp).mp hqd
      omega

/-- Soundness under the no-large-square-free-composite condition: if the
effective limit stays below `(√N + 1)^2`, every value in the union is a
prime at most the effective limit. -/
theorem v9_sound (N K n : Nat) (hN : 4 ≤ N) (hK : 0 < K)
    (hsq : effectiveLimit N < (Nat.sqrt N + 1) * (Nat.sqrt N + 1))
    (hmem : v9UnionMember N K n) : n.Prime ∧ n ≤ effectiveLimit N := by
  rw [v9UnionMember_iff N K n hN hK] at hmem
  obtain ⟨hlowN, heffN, htot1, heq⟩ := effectiveLimit_structure N hN
  rcases hmem with h | ⟨idx, hidx, h⟩
  · rcases (mem_find_primes_v2 _ n).mp h with ⟨hp, hle⟩
    exact ⟨hp, le_trans hle (le_trans (Nat.sqrt_le_self N) heffN)⟩
  · rcases (mem_segmentValues _ _ _ n).mp h with ⟨i, hi, hval, hle, hnd⟩
    have hseglowodd := segLow_odd (Nat.sqrt N) idx
    have hnodd : n % 2 = 1 := by omega
    have hnle : n ≤ effectiveLimit N := by
      refine le_trans hle ?_
      unfold segHigh
      exact Nat.min_le_right _ _
    have hs2 : 2 ≤ Nat.sqrt N := Nat.le_sqrt.mpr (by omega)
    have hlow3 : 3 ≤ segStartLow (Nat.sqrt N) := by
      have := (segStartLow_bounds (Nat.sqrt N)).1
      omega
    have hnge : segStartLow (Nat.sqrt N) ≤ n := by
      have hsegloweq : segLow (Nat.sqrt N) idx =
          segStartLow (Nat.sqrt N) + idx * SEGMENT_SIZE_NUMBERS := rfl
      omega
    refine ⟨?_, hnle⟩
    by_contra hnp
    have hq := Nat.minFac_prime (show n ≠ 1 by omega)
    have hqd := Nat.minFac_dvd n
    have hqsq : n.minFac * n.minFac ≤ n := by
      have := Nat.minFac_sq_le_self (show 0 < n by omega) hnp
      rwa [Nat.pow_two] at this
    have hqs : n.minFac ≤ Nat.sqrt N := by
      by_contra hgt
      push_neg at hgt
      have hmul : (Nat.sqrt N + 1) * (Nat.sqrt N + 1) ≤ n.minFac * n.minFac :=
        Nat.mul_le_mul hgt hgt
      omega
    have hqodd : n.minFac % 2 = 1 := by
      rcases Nat.even_or_odd n.minFac with he | ho
      · exfalso
        have h2 : n.minFac = 2 := (Nat.Prime.even_iff hq).mp he
        rw [h2] at hqd
        omega
      · exact Nat.odd_iff.mp ho
    have hqtail : n.minFac ∈ (find_primes_v2 (Nat.sqrt N)).tail :=
      (mem_find_primes_v2_tail (Nat.sqrt N) _).mpr ⟨hq, hqs, by omega⟩
    exact hnd _ hqtail hqd

/-! ## The v9 segment scheduler (`next_segment: AtomicUsize` in
`find_primes_v9_multi_consumers`).  Each worker loops on
`next_segment.fetch_add(1)` and breaks once the returned index reaches
`total_segments`.  The atomic is modelled by its linearization: the k-th
`fetch_add` (over all workers, in linearization order) returns `k`. -/

/-- The outcome of the claim whose `fetch_add` returned `k`: the claimed
index, or `none` when the worker sees `segment_idx >= total_segments` and
breaks (exhaustion). -/
def claimResult (total_segments k : Nat) : Option Nat :=
  if k < total_segments then some k else none

/-- The outcomes of the first `n` claims, in linearization order. -/
def claimTrace (total_segments n : Nat) : List (Option Nat) :=
  (List.range n).map (claimResult total_segments)

theorem claimTrace_filterMap (total_segments n : Nat) :
    (claimTrace total_segments n).filterMap id =
      List.range (min n total_segments) := by
  induction n with
  | zero => simp [claimTrace]
  | succ n ih =>
    unfold claimTrace at ih ⊢
    rw [List.range_succ, List.map_append, List.filterMap_append, ih]
    by_cases h : n < total_segments
    · have h1 : min n total_segments = n := by omega
      have h2 : min (n + 1) total_segments = n + 1 := by omega
      rw [h1, h2, List.range_succ]
      simp [claimResult, h]
    · have h1 : min n total_segments = total_segments := by omega
      have h2 : min (n + 1) total_segments = total_segments := by omega
      rw [h1, h2]
      simp [claimResult, h]

/-! ## io_uring completion handling (`storage_uring.rs`). -/

/-- `UringBatchWriter::poll_completions`: walk the available completion
queue entries (each carries the kernel's `i32` result); a negative result
returns `Err(io::Error::from_raw_os_error(-result))` at once, otherwise
every entry is counted and popped. -/
def poll_completions : List Int → Except Int Nat
  | [] => Except.ok 0
  | r :: rest =>
    if r < 0 then Except.error (-r)
    else
      match poll_completions rest with
      | Except.ok k => Except.ok (k + 1)
      | Except.error e => Except.error e

/-- The ways the uring consumer's handling of a failed completion could
terminate the pipeline. -/
inductive ConsumerTermination where
  /-- The loop goes on; the failure is dropped. -/
  | droppedSilently : ConsumerTermination
  /-- `std::process::exit(code)`: an abrupt, uncoordinated process halt. -/
  | processExit (code : Nat) : ConsumerTermination
  /-- A typed fatal error propagated through the pipeline. -/
  | fatalError (errno : Int) : ConsumerTermination
deriving DecidableEq

/-- The branch at `storage_uring.rs:226-230` in
`save_primes_multi_consumer_uring`: when `poll_completions` reports a
failure the consumer prints to stderr and calls `std::process::exit(1)`;
on success the loop simply continues (`none`). -/
def uringPollOutcome (cqes : List Int) : Option ConsumerTermination :=
  match poll_completions cqes with
  | Except.ok _ => none
  | Except.error _ => some (ConsumerTermination.processExit 1)

/-! ## Text output (`save_primes_streaming` in `storage.rs`). -/

/-- The content `save_primes_streaming` writes to `primes.txt`: each value
received on the channel, in decimal (`itoa` formatting) followed by a
newline, in arrival order. -/
def savePrimesStreamingContent (primes : List Nat) : String :=
  String.join (primes.map (fun p => toString p ++ "\n"))

/-- `find_primes_v1_streaming` sends, in order, exactly the list
`find_primes_v1` collects (the two Rust bodies run the same sieve and
traversal). -/
theorem find_primes_v1_streaming_eq (limit : Nat) :
    find_primes_v1_streaming limit = find_primes_v1 limit := rfl

/-! ## Concrete arithmetic facts used at the evaluation points. -/

theorem sqrt_528528 : Nat.sqrt 528528 = 726 := by
  have h1 : (726 : Nat) ≤ Nat.sqrt 528528 := Nat.le_sqrt.mpr (by norm_num)
  have h2 : Nat.sqrt 528528 < 727 := Nat.sqrt_lt.mpr (by norm_num)
  omega

/-- The `let` chain of `effectiveLimit`, written out. -/
theorem effectiveLimit_eq (limit : Nat) :
    effectiveLimit limit = segStartLow (Nat.sqrt limit) +
      ((if segStartLow (Nat.sqrt limit) ≤ limit then
          limit - segStartLow (Nat.sqrt limit) + 1 else 0) +
        SEGMENT_SIZE_NUMBERS - 1) / SEGMENT_SIZE_NUMBERS * SEGMENT_SIZE_NUMBERS - 1 := rfl

theorem effectiveLimit_528528 : effectiveLimit 528528 = 1049302 := by
  rw [effectiveLimit_eq, sqrt_528528]
  decide

theorem sqrt_524288 : Nat.sqrt 524288 = 724 := by
  have h1 : (724 : Nat) ≤ Nat.sqrt 524288 := Nat.le_sqrt.mpr (by norm_num)
  have h2 : Nat.sqrt 524288 < 725 := Nat.sqrt_lt.mpr (by norm_num)
  omega

theorem effectiveLimit_524288 : effectiveLimit 524288 = 525012 := by
  rw [effectiveLimit_eq, sqrt_524288]
  decide

theorem find_primes_v1_30 :
    find_primes_v1 30 = [2, 3, 5, 7, 11, 13, 17, 19, 23, 29] := by
  have hdec : ∀ n : Nat, n < 31 →
      (Nat.Prime n ↔ n ∈ ([2, 3, 5, 7, 11, 13, 17, 19, 23, 29] : List Nat)) := by
    decide
  have key : ∀ n : Nat, n ∈ find_primes_v1 30 ↔
      n ∈ ([2, 3, 5, 7, 11, 13, 17, 19, 23, 29] : List Nat) := by
    intro n
    rw [mem_find_primes_v1]
    constructor
    · rintro ⟨hp, hle⟩
      exact (hdec n (by omega)).mp hp
    · intro h
      have hn31 : n < 31 := by
        fin_cases h <;> omega
      exact ⟨(hdec n hn31).mpr h, by omega⟩
  have h1 : (find_primes_v1 30).Pairwise (· < ·) := find_primes_v1_sorted 30
  have h2 : ([2, 3, 5, 7, 11, 13, 17, 19, 23, 29] : List Nat).Pairwise (· < ·) := by
    decide
  have hperm : (find_primes_v1 30).Perm ([2, 3, 5, 7, 11, 13, 17, 19, 23, 29] : List Nat) :=
    (List.perm_ext_iff_of_nodup (h1.imp Nat.ne_of_lt) (h2.imp Nat.ne_of_lt)).mpr key
  exact List.eq_of_perm_of_sorted hperm (h1.imp Nat.le_of_lt) (h2.imp Nat.le_of_lt)

/-! ## The claims. -/

/-- C2: for every `total_segments` and any number of workers sharing the
atomic cursor, each segment index in `[0, total_segments)` is claimed
exactly once (no duplicates, no gaps), and every claim attempt after the
cursor reaches `total_segments` reports exhaustion.  Over the linearized
trace of `n ≥ total_segments` `fetch_add` claims: the successful claims
are exactly `0, 1, …, total_segments - 1` in order, each index is claimed
exactly once, and every later claim returns `none`. -/
theorem c2_scheduler_exactly_once (total_segments n : Nat)
    (h : total_segments ≤ n) :
    ((claimTrace total_segments n).filterMap id = List.range total_segments) ∧
    (∀ i, i < total_segments →
      List.count i ((claimTrace total_segments n).filterMap id) = 1) ∧
    (∀ k, total_segments ≤ k → claimResult total_segments k = none) := by
  have hmin : min n total_segments = total_segments := by omega
  refine ⟨by rw [claimTrace_filterMap, hmin], ?_, ?_⟩
  · intro i hi
    rw [claimTrace_filterMap, hmin]
    exact List.count_eq_one_of_mem (List.nodup_range _) (List.mem_range.mpr hi)
  · intro k hk
    unfold claimResult
    rw [if_neg (by omega)]

theorem c2_scheduler_exactly_once_witness :
    (claimTrace 3 5).filterMap id = List.range 3 ∧ claimResult 3 4 = none :=
  ⟨(c2_scheduler_exactly_once 3 5 (by decide)).1,
   (c2_scheduler_exactly_once 3 5 (by decide)).2.2 4 (by decide)⟩

/-- C4: for every input `N ≥ 0` the trial-divisor base
`find_primes_v2(sqrt_limit)` with `sqrt_limit = √N` is the ascending list
of all primes `p` with `p ≤ √N` (equivalently `p * p ≤ N`), and it is
empty whenever `N < 4`; as a Lean function of `N` it is deterministic and
side-effect free by construction. -/
theorem c4_trial_divisor_base_spec (N : Nat) :
    (∀ p, p ∈ find_primes_v2 (Nat.sqrt N) ↔ Nat.Prime p ∧ p * p ≤ N) ∧
    (find_primes_v2 (Nat.sqrt N)).Pairwise (· < ·) ∧
    (N < 4 → find_primes_v2 (Nat.sqrt N) = []) := by
  refine ⟨?_, find_primes_v2_sorted _, ?_⟩
  · intro p
    rw [mem_find_primes_v2, Nat.le_sqrt]
  · intro h4
    rw [List.eq_nil_iff_forall_not_mem]
    intro p hp
    rcases (mem_find_primes_v2 _ p).mp hp with ⟨hpp, hple⟩
    have h2 := hpp.two_le
    have hs : Nat.sqrt N < 2 := by
      have := Nat.sqrt_lt.mpr (show N < 2 * 2 by omega)
      omega
    omega

/-- C6: the spec requires that a failed kernel-queue completion terminate
the pipeline through an explicit, typed fatal-error path, neither silently
dropped nor an uncoordinated abrupt process halt.  The code refutes this:
whenever `poll_completions` reports a failure,
`save_primes_multi_consumer_uring` terminates with `std::process::exit(1)`
(an abrupt, uncoordinated process halt), never with a typed fatal error. -/
theorem c6_completion_failure_exits_process (cqes : List Int) (e : Int)
    (h : poll_completions cqes = Except.error e) :
    uringPollOutcome cqes = some (ConsumerTermination.processExit 1) ∧
    (∀ errno, uringPollOutcome cqes ≠
      some (ConsumerTermination.fatalError errno)) := by
  unfold uringPollOutcome
  rw [h]
  exact ⟨rfl, fun errno hc => by simp at hc⟩

theorem c6_completion_failure_exits_process_witness :
    uringPollOutcome [(-5 : Int)] = some (ConsumerTermination.processExit 1) ∧
    (∀ errno, uringPollOutcome [(-5 : Int)] ≠
      some (ConsumerTermination.fatalError errno)) :=
  c6_completion_failure_exits_process [(-5 : Int)] 5 rfl

/-- C10: for every variation number outside the supported set `{1,…,5}`,
`find_primes` and `find_primes_streaming` do not fail: they print the
unknown-variation warning to stderr (the `true` flag) and produce exactly
variation 1's result. -/
theorem c10_unknown_variation_falls_back_to_v1 (limit variation : Nat)
    (h : variation ∉ ([1, 2, 3, 4, 5] : List Nat)) :
    find_primes limit variation = (find_primes_v1 limit, true) ∧
    find_primes_streaming limit variation =
      (find_primes_v1_streaming limit, true) := by
  simp only [List.mem_cons, List.not_mem_nil, or_false, not_or] at h
  obtain ⟨h1, h2, h3, h4, h5⟩ := h
  constructor
  · unfold find_primes
    rw [if_neg h1, if_neg h2, if_neg h3, if_neg h4, if_neg h5]
  · unfold find_primes_streaming
    rw [if_neg h1, if_neg h2, if_neg h3, if_neg h4, if_neg h5]

theorem c10_unknown_variation_falls_back_to_v1_witness :
    find_primes 10 7 = (find_primes_v1 10, true) ∧
    find_primes_streaming 10 7 = (find_primes_v1_streaming 10, true) :=
  c10_unknown_variation_falls_back_to_v1 10 7 (by decide)

/-- C1 (amended): the original claim — the union of all consumer files
plus the privileged small-primes file equals the reference sieve's primes
for `[0, N]` — fails for limits where the sieving range extended to the
segment boundary reaches `(⌊√N⌋ + 1)²` (see the counterexample).  Amended:
for every `N ≥ 4` and consumer count `K ≥ 1` such that
`effectiveLimit N < (√N + 1)²`, the union equals exactly the reference
sieve `find_primes_v1`'s result for `[0, effectiveLimit N]`, the limit the
pipeline actually sieves (it exceeds the requested `N` whenever `N` is not
on a segment boundary, which C9 records). -/
theorem c1_amended_union_matches_reference (N K n : Nat) (hN : 4 ≤ N)
    (hK : 0 < K)
    (hsq : effectiveLimit N < (Nat.sqrt N + 1) * (Nat.sqrt N + 1)) :
    v9UnionMember N K n ↔ n ∈ find_primes_v1 (effectiveLimit N) := by
  rw [mem_find_primes_v1]
  exact ⟨fun h => v9_sound N K n hN hK hsq h,
    fun h => v9_complete N K n hN hK h.1 h.2⟩

theorem c1_amended_union_matches_reference_witness :
    v9UnionMember 524288 1 524287 ↔
      524287 ∈ find_primes_v1 (effectiveLimit 524288) :=
  c1_amended_union_matches_reference 524288 1 524287 (by norm_num)
    (by norm_num)
    (by rw [effectiveLimit_524288, sqrt_524288]; norm_num)

/-- C1 counterexample: for requested limit `N = 528528` (any consumer
count; here `K = 2`) the pipeline's output files contain the value
`528529 = 727 * 727`, which is composite and greater than `N`, so the
union is not the reference sieve's prime list for `[0, N]`: the workers
mark with primes up to `√528528 = 726` only, but sieve the segment range
up to `effectiveLimit 528528 = 1049302 ≥ 727²`, so the square of the next
prime survives. -/
theorem c1_claim_counterexample :
    v9UnionMember 528528 2 528529 ∧ ¬ Nat.Prime 528529 ∧
      528529 ∉ find_primes_v1 528528 := by
  refine ⟨?_, ?_, ?_⟩
  · rw [v9UnionMember_iff 528528 2 528529 (by norm_num) (by norm_num)]
    right
    rw [effectiveLimit_528528, sqrt_528528]
    refine ⟨1, by decide, ?_⟩
    rw [mem_segmentValues]
    refine ⟨1757, by decide, by decide, by decide, ?_⟩
    intro q hq hqd
    rcases (mem_find_primes_v2_tail 726 q).mp hq with ⟨hqp, hqle, -⟩
    have h727 : Nat.Prime 727 := by norm_num
    have heq : (528529 : Nat) = 727 * 727 := by norm_num
    rw [heq] at hqd
    rcases (Nat.Prime.dvd_mul hqp).mp hqd with hd | hd <;>
    · have := (Nat.prime_dvd_prime_iff_eq hqp h727).mp hd
      omega
  · intro hp
    have hd : (727 : Nat) ∣ 528529 := ⟨727, by norm_num⟩
    rcases Nat.Prime.eq_one_or_self_of_dvd hp 727 hd with h | h <;> norm_num at h
  · rw [mem_find_primes_v1]
    rintro ⟨-, hle⟩
    omega

/-- C9: for every requested limit `N ≥ 4` the program raises the working
limit to `effective_limit = low + num_segments * SEGMENT_SIZE_NUMBERS - 1
≥ N` before sieving, and the variation-9 pipeline emits every prime up to
`effective_limit` inclusive into the union of its output files — so a
prime strictly greater than the requested `N` (which exists whenever `N`
is not on a segment boundary, i.e. `N < effective_limit`) appears in the
output. -/
theorem c9_effective_limit_and_completeness (N K p : Nat) (hN : 4 ≤ N)
    (hK : 0 < K) (hp : Nat.Prime p) (hple : p ≤ effectiveLimit N) :
    N ≤ effectiveLimit N ∧
    (∃ q, 1 ≤ q ∧ effectiveLimit N =
      segStartLow (Nat.sqrt N) + q * SEGMENT_SIZE_NUMBERS - 1) ∧
    v9UnionMember N K p := by
  obtain ⟨hlow, heff, htot, heq⟩ := effectiveLimit_structure N hN
  exact ⟨heff,
    ⟨v9TotalSegments (effectiveLimit N) (Nat.sqrt N), htot, heq⟩,
    v9_complete N K p hN hK hp hple⟩

theorem c9_effective_limit_and_completeness_witness :
    528528 < 528559 ∧ v9UnionMember 528528 2 528559 :=
  ⟨by norm_num,
   (c9_effective_limit_and_completeness 528528 2 528559 (by norm_num)
      (by norm_num) (by norm_num)
      (by rw [effectiveLimit_528528]; norm_num)).2.2⟩

/-- C3: consumer `c` out of `K` consumers receives only segments whose id
is congruent to `c` modulo `K`, and for any arrival order (any permutation
of its assigned segments) the values it appends to its file are strictly
ascending: the reorder buffer releases segments in increasing id order
with stride `K` from `c`'s first assigned id. -/
theorem c3_consumer_routing_and_ascending_order (limit s K c : Nat)
    (hK : 0 < K) (hc : 1 ≤ c) (hcK : c ≤ K)
    (arrivals : List SegmentPrimes)
    (hperm : arrivals.Perm (assignedSegs limit s K c)) :
    (∀ seg ∈ arrivals, seg.segment_id % K = c % K) ∧
    (consumerFileValues arrivals c K).Pairwise (· < ·) := by
  constructor
  · intro seg hseg
    exact assignedSegs_mod limit s K c hK hc hcK seg (hperm.mem_iff.mp hseg)
  · unfold consumerFileValues
    rw [consumerRunSegs_of_perm limit s K c hK hc hcK arrivals hperm]
    rw [List.pairwise_flatten]
    constructor
    · intro l hl
      rw [List.mem_map] at hl
      rcases hl with ⟨seg, hseg, rfl⟩
      rcases (mem_assignedSegs limit s K c seg).mp hseg with ⟨idx, hidx, -, rfl⟩
      rw [segmentPrimesAt_primes]
      exact segmentValues_sorted limit s idx
    · rw [List.pairwise_map]
      unfold assignedSegs
      rw [List.pairwise_filterMap]
      refine (List.pairwise_lt_range _).imp ?_
      intro a b hab x hx y hy
      split at hx
      · split at hy
        · simp only [Option.mem_def, Option.some.injEq] at hx hy
          rw [← hx, ← hy]
          intro u hu v hv
          rw [segmentPrimesAt_primes] at hu hv
          have hb1 := segmentValues_bounds limit s a u hu
          have hb2 := segmentValues_bounds limit s b v hv
          have hmul : (a + 1) * SEGMENT_SIZE_NUMBERS ≤
              b * SEGMENT_SIZE_NUMBERS :=
            Nat.mul_le_mul_right _ (by omega)
          have hsucc : (a + 1) * SEGMENT_SIZE_NUMBERS =
              a * SEGMENT_SIZE_NUMBERS + SEGMENT_SIZE_NUMBERS := by ring
          have hsl1 : segLow s a =
              segStartLow s + a * SEGMENT_SIZE_NUMBERS := rfl
          have hsl2 : segLow s b =
              segStartLow s + b * SEGMENT_SIZE_NUMBERS := rfl
          have hSEG2 : 2 ≤ SEGMENT_SIZE_NUMBERS := by decide
          omega
        · simp at hy
      · simp at hx

theorem c3_consumer_routing_and_ascending_order_witness :
    (∀ seg ∈ (assignedSegs 10 3 2 1).reverse,
      seg.segment_id % 2 = 1 % 2) ∧
    (consumerFileValues ((assignedSegs 10 3 2 1).reverse) 1 2).Pairwise
      (· < ·) :=
  c3_consumer_routing_and_ascending_order 10 3 2 1 (by decide) (by decide)
    (by decide) ((assignedSegs 10 3 2 1).reverse) (List.reverse_perm _)

/-- C5: the spec requires that a reorder buffer left non-empty when the
channel closes (a protocol violation: missing or duplicated id) be
surfaced as an error, not silently written.  The code refutes this:
`save_primes_multi_consumer_binary` pops every residual entry and writes
it to the file exactly as a well-formed segment.  Concrete run (consumer 1
of 1): the channel delivers only segment id 2, never the expected id 1;
at closure the buffer still holds segment 2, yet its prime is written to
the file and counted, with no error signal of any kind in the function's
behaviour. -/
theorem c5_residual_silently_written :
    (consumerRun [⟨[9], 2⟩] 1 1).buf = [⟨[9], 2⟩] ∧
    (consumerRun [⟨[9], 2⟩] 1 1).out = [] ∧
    consumerFileValues [⟨[9], 2⟩] 1 1 = [9] ∧
    consumerSavedCount [⟨[9], 2⟩] 1 1 = 1 := by
  have hrun : consumerRun [⟨[9], 2⟩] 1 1 =
      { buf := [⟨[9], 2⟩], next := 1, out := [] } := by
    show consumerStep 1 { buf := [], next := 1, out := [] } ⟨[9], 2⟩ = _
    unfold consumerStep
    unfold drain
    simp [bufInsert, bufRemove]
  refine ⟨by rw [hrun], by rw [hrun], ?_, ?_⟩
  · unfold consumerFileValues consumerRunSegs
    rw [hrun]
    rfl
  · unfold consumerSavedCount consumerFileValues consumerRunSegs
    rw [hrun]
    rfl

/-- C7: two runs of the pipeline with identical parameters produce
byte-identical consumer output files regardless of thread scheduling: for
any two arrival orders (both permutations of the segments assigned to
consumer `c`, which is all the routing allows), the bytes written to
consumer `c`'s file are equal. -/
theorem c7_output_bytes_deterministic (limit s K c : Nat) (hK : 0 < K)
    (hc : 1 ≤ c) (hcK : c ≤ K) (arr1 arr2 : List SegmentPrimes)
    (h1 : arr1.Perm (assignedSegs limit s K c))
    (h2 : arr2.Perm (assignedSegs limit s K c)) :
    consumerFileBytes arr1 c K = consumerFileBytes arr2 c K := by
  unfold consumerFileBytes consumerFileValues
  rw [consumerRunSegs_of_perm limit s K c hK hc hcK arr1 h1,
    consumerRunSegs_of_perm limit s K c hK hc hcK arr2 h2]

theorem c7_output_bytes_deterministic_witness :
    consumerFileBytes (assignedSegs 10 3 2 1) 1 2 =
      consumerFileBytes ((assignedSegs 10 3 2 1).reverse) 1 2 :=
  c7_output_bytes_deterministic 10 3 2 1 (by decide) (by decide) (by decide)
    (assignedSegs 10 3 2 1) ((assignedSegs 10 3 2 1).reverse)
    (List.Perm.refl _) (List.reverse_perm _)

/-- C8: for input `N = 30`, variation 1 (1 worker, 1 consumer, text
mode), the values streamed to `save_primes_streaming` are exactly
`2, 3, 5, 7, 11, 13, 17, 19, 23, 29` in ascending order with no warning,
and the text written to `primes.txt` is exactly those values, one per
line. -/
theorem c8_scenario_a_output :
    find_primes_streaming 30 1 =
      ([2, 3, 5, 7, 11, 13, 17, 19, 23, 29], false) ∧
    savePrimesStreamingContent (find_primes_streaming 30 1).1 =
      "2\n3\n5\n7\n11\n13\n17\n19\n23\n29\n" ∧
    ([2, 3, 5, 7, 11, 13, 17, 19, 23, 29] : List Nat).Pairwise (· < ·) := by
  have h30 : find_primes_streaming 30 1 =
      ([2, 3, 5, 7, 11, 13, 17, 19, 23, 29], false) := by
    have hd : find_primes_streaming 30 1 =
        (find_primes_v1_streaming 30, false) := rfl
    rw [hd, find_primes_v1_streaming_eq, find_primes_v1_30]
  refine ⟨h30, ?_, by decide⟩
  rw [h30]
  rfl
